import Mathlib

/-!
Verification of the c3nav map-cache core against its natural-language
specification.

The development shallowly embeds the Python sources:

* `src/c3nav/mapdata/utils/cache/maphistory.py` (`MapHistory`)
* `src/c3nav/mapdata/render/data/levelrender.py` (`Cropper`, `LevelRenderData.rebuild`)
* `src/c3nav/mapdata/utils/index.py` (the two `Index` implementations)
* `src/c3nav/tileserver/wsgi.py` (`TileServer`)

Numpy arrays are embedded as flat row-major `List Nat` grids, shapely
geometries as the finite sets of grid cells / abstract points they cover,
and machine integers as `Nat`/`Int` with explicit bounds where the binary
serialization format requires them.
-/

namespace C3nav

/-- An update record `(id, timestamp)`, both uint32 on disk. -/
abbrev Update := Nat × Nat

/-- A rasterized geometry, modelled as the finite list of integer grid cells
it covers at the store's resolution.  (Shapely geometry plus rasterization
is abstracted into the resulting covered-cell set.) -/
abbrev RGeom := List (Int × Int)

/-- Row-major grid construction: cell `(x, y)` (with `x < w`, `y < h`)
holds `f x y`, stored at flat index `y * w + x`. -/
def gridOf (w h : Nat) (f : Nat → Nat → Nat) : List Nat :=
  (List.range (h * w)).map (fun i => f (i % w) (i / w))

/-- Embedding of `MapHistory` (`maphistory.py`) together with the grid
fields it inherits from `LevelGeometryIndexed`.

Modelled from the spec where the base class is missing from `src/`:
"2D array over a fixed geographic bounding box at fixed resolution; each
cell stores an index into an ordered `updates` list"; the grid "may grow
its bounds, padding new cells with index 0, without disturbing existing
cell values".  Bounds are kept in cell units: the grid covers cells
`(x, y)` with `minx ≤ x < maxx`, `miny ≤ y < maxy`, stored row-major. -/
structure MapHistory where
  minx : Int
  miny : Int
  maxx : Int
  maxy : Int
  resolution : Nat
  updates : List Update
  data : List Nat
  deriving Repr, DecidableEq

namespace MapHistory

def width (h : MapHistory) : Nat := (h.maxx - h.minx).toNat

def height (h : MapHistory) : Nat := (h.maxy - h.miny).toNat

def inBounds (h : MapHistory) (x y : Int) : Prop :=
  h.minx ≤ x ∧ x < h.maxx ∧ h.miny ≤ y ∧ y < h.maxy

instance (h : MapHistory) (x y : Int) : Decidable (h.inBounds x y) := by
  unfold inBounds; infer_instance

/-- Flat row-major index of cell `(x, y)`. Only meaningful under `inBounds`. -/
def cellIdx (h : MapHistory) (x y : Int) : Nat :=
  (y - h.miny).toNat * h.width + (x - h.minx).toNat

/-- Value of cell `(x, y)`; only meaningful under `inBounds`. -/
def cellVal (h : MapHistory) (x y : Int) : Nat :=
  h.data.getD (h.cellIdx x y) 0

/-- Modelled from the spec (base class `fit_bounds`): grow the bounding box
to also cover the given rectangle, padding new cells with index 0 and
keeping existing cell values. -/
def fit_bounds (h : MapHistory) (nminx nminy nmaxx nmaxy : Int) : MapHistory :=
  let minx' := min h.minx nminx
  let miny' := min h.miny nminy
  let maxx' := max h.maxx nmaxx
  let maxy' := max h.maxy nmaxy
  let w' := (maxx' - minx').toNat
  let h' := (maxy' - miny').toNat
  { h with
    minx := minx', miny := miny', maxx := maxx', maxy := maxy',
    data := gridOf w' h' (fun rx ry =>
      if h.inBounds (minx' + rx) (miny' + ry) then h.cellVal (minx' + rx) (miny' + ry) else 0) }

/-- Set every in-bounds cell covered by `g` to `v` (the masked numpy
assignment underlying `self[geometry] = value`). -/
def setCells (h : MapHistory) (g : RGeom) (v : Nat) : MapHistory :=
  { h with
    data := gridOf h.width h.height (fun rx ry =>
      if (h.minx + rx, h.miny + ry) ∈ g then v else h.cellVal (h.minx + rx) (h.miny + ry)) }

/-- Grow the grid so it covers every cell of `g` (modelled from the spec:
`addGeometry` "sets every touched cell", and the grid "may grow its
bounds"). -/
def fitGeom (h : MapHistory) : RGeom → MapHistory
  | [] => h
  | c :: cs =>
      h.fit_bounds (cs.foldr (fun p a => min p.1 a) c.1)
                   (cs.foldr (fun p a => min p.2 a) c.2)
                   (cs.foldr (fun p a => max p.1 a) c.1 + 1)
                   (cs.foldr (fun p a => max p.2 a) c.2 + 1)

/-- Modelled from the spec (base class `__setitem__`):
`self[geometry] = value` rasterizes the geometry and writes `value` into
every covered cell, growing the grid to fit first. -/
def setGeometry (h : MapHistory) (g : RGeom) (v : Nat) : MapHistory :=
  setCells (h.fitGeom g) g v

/-- Integer interval `[a, b)` as a list. -/
def intRange (a b : Int) : List Int :=
  (List.range (b - a).toNat).map (fun i => a + Int.ofNat i)

/-- Modelled from the spec (base class slicing): `self[x0:x1, y0:y1]`
yields the values of all grid cells inside the rectangle, clipped to the
grid bounds. -/
def slice (h : MapHistory) (x0 x1 y0 y1 : Int) : List Nat :=
  (intRange (max y0 h.miny) (min y1 h.maxy)).flatMap (fun y =>
    (intRange (max x0 h.minx) (min x1 h.maxx)).map (fun x => h.cellVal x y))

/-- Embeds `MapHistory.last_update` (maphistory.py line 101): the update with the
maximum index among cells in the rectangle, or the update at index 0 if
the rectangle covers no cells. -/
def last_update (h : MapHistory) (qminx qminy qmaxx qmaxy : Int) : Update :=
  let cells := h.slice qminx qmaxx qminy qmaxy
  if cells.isEmpty then h.updates.getD 0 (0, 0)
  else h.updates.getD (cells.foldr max 0) (0, 0)

/-- Embeds `MapHistory.add_geometry` (maphistory.py line 47): append `update` if
it differs from the most recently appended one, then stamp every cell of
`geometry` with the last list index.  (The Python `self.updates[-1]`
presupposes a non-empty update list; theorems assume it.) -/
def add_geometry (h : MapHistory) (geometry : RGeom) (update : Update) : MapHistory :=
  let h1 := if h.updates.getLast? = some update then h
            else { h with updates := h.updates ++ [update] }
  h1.setGeometry geometry (h1.updates.length - 1)

/-- The update indices `simplify` keeps: index 0 and every index some
live cell references (`i == 0 or affected.any()`). -/
def simpKept (h : MapHistory) : List Nat :=
  (List.range h.updates.length).filter (fun i => i = 0 ∨ i ∈ h.data)

/-- The renumbering `simplify` applies to one cell value: a kept index is
replaced by its position in the compacted list (the numpy masks only
rewrite cells holding a kept index; others are untouched). -/
def simpVal (h : MapHistory) (v : Nat) : Nat :=
  if v ∈ h.simpKept then h.simpKept.indexOf v else v

/-- Embeds `MapHistory.simplify` (maphistory.py line 53): drop every update no
live cell references (index 0 always kept), renumber cell values to the
compacted list.  (Named `simplifyUpdates` because the bare source name
collides with a Lean tactic name.) -/
def simplifyUpdates (h : MapHistory) : MapHistory :=
  { h with
    updates := h.simpKept.filterMap (fun i => h.updates[i]?),
    data := h.data.map h.simpVal }

/-- Insert an update into a list sorted by the lexicographic tuple order
Python uses for `(id, timestamp)` tuples. -/
def insertSortedUpd (u : Update) : List Update → List Update
  | [] => [u]
  | v :: rest =>
      if u.1 < v.1 ∨ (u.1 = v.1 ∧ u.2 ≤ v.2) then u :: v :: rest
      else v :: insertSortedUpd u rest

/-- Embeds `sorted(...)` on update tuples (insertion sort; ascending lexicographic). -/
def sortUpdates (l : List Update) : List Update := l.foldr insertSortedUpd []

/-- Embeds `sorted(set(self_updates) | set(other_updates))` (maphistory.py line 76). -/
def mergeUpdates (a b : List Update) : List Update := sortUpdates ((a ++ b).dedup)

/-- The Python dict `{update: i for i, update in enumerate(updates)}`:
for a duplicated update the *last* index wins. -/
def dictIdx (ups : List Update) (u : Update) : Option Nat :=
  ((List.range ups.length).filter (fun i => ups[i]? = some u)).getLast?

/-- The reindexing loop of `composite` (maphistory.py lines 81-85), as the
set of simultaneous rewrites it performs: one pair `(old index, new index)`
for every merged update present in the old list.  The numpy masks are
computed against a copy of the data, so the sequential writes equal this
simultaneous map. -/
def reindexMap (ups newUps : List Update) : List (Nat × Nat) :=
  newUps.enum.filterMap (fun p =>
    match dictIdx ups p.2 with
    | some j => some (j, p.1)
    | none => none)

/-- One cell's rewrite: a value matching an old index becomes the
corresponding new index, any other value is kept. -/
def remapVal (m : List (Nat × Nat)) (v : Nat) : Nat :=
  match m.find? (fun p => p.1 == v) with
  | some p => p.2
  | none => v

/-- Apply the rewrite pairs to a data array. -/
def applyRemap (m : List (Nat × Nat)) (data : List Nat) : List Nat :=
  data.map (remapVal m)

/-- Stage 1 of `composite`: `self.fit_bounds(*other.bounds)` (line 70). -/
def compositeS1 (self other : MapHistory) : MapHistory :=
  self.fit_bounds other.minx other.miny other.maxx other.maxy

/-- Stage 2 of `composite`: `other.fit_bounds(*self.bounds)` after stage 1
(line 71). -/
def compositeO1 (self other : MapHistory) : MapHistory :=
  other.fit_bounds (compositeS1 self other).minx (compositeS1 self other).miny
    (compositeS1 self other).maxx (compositeS1 self other).maxy

/-- The merged update list of `composite` (line 76). -/
def compositeNewUps (self other : MapHistory) : List Update :=
  mergeUpdates (compositeS1 self other).updates (compositeO1 self other).updates

/-- The array `self.data` after reindexing into the merged update list (lines 79-85). -/
def compositeSData (self other : MapHistory) : List Nat :=
  applyRemap (reindexMap (compositeS1 self other).updates (compositeNewUps self other))
    (compositeS1 self other).data

/-- The copy of `other.data` after reindexing (lines 79-85); `other`
itself is not written to. -/
def compositeOData (self other : MapHistory) : List Nat :=
  applyRemap (reindexMap (compositeO1 self other).updates (compositeNewUps self other))
    (compositeO1 self other).data

/-- The cellwise maximum `np.maximum(self.data, other_data)` (line 88). -/
def compositeMaxData (self other : MapHistory) : List Nat :=
  List.zipWith max (compositeSData self other) (compositeOData self other)

/-- The final data of `self`: the maximum everywhere, or only under the
mask's cells (lines 91-95). -/
def compositeFinalData (self other : MapHistory) (mask_geometry : Option RGeom) : List Nat :=
  match mask_geometry with
  | none => compositeMaxData self other
  | some g =>
      gridOf (compositeS1 self other).width (compositeS1 self other).height (fun rx ry =>
        if ((compositeS1 self other).minx + rx, (compositeS1 self other).miny + ry) ∈ g then
          (compositeMaxData self other).getD (ry * (compositeS1 self other).width + rx) 0
        else
          (compositeSData self other).getD (ry * (compositeS1 self other).width + rx) 0)

/-- Embeds `MapHistory.composite` (maphistory.py line 66).  Returns `none` on the
`ValueError` for differing resolutions; otherwise returns the mutated
`self` (merged updates written back, then `simplify`) and the mutated
`other` (only grown by `fit_bounds`). -/
def composite (self other : MapHistory) (mask_geometry : Option RGeom) :
    Option (MapHistory × MapHistory) :=
  if self.resolution ≠ other.resolution then none
  else
    some (MapHistory.simplifyUpdates
      { compositeS1 self other with
        updates := compositeNewUps self other,
        data := compositeFinalData self other mask_geometry },
      compositeO1 self other)

/-! ### Persisted layout

Modelled from the spec: "header (bounds, resolution, cell width) +
metadata (2-byte update count, then N×(4-byte id, 4-byte timestamp)) +
row-major cell array", all little-endian; the cell width is 2 bytes
(`dtype = np.uint16`).  Bytes are `Nat`s below 256. -/

def encodeU16 (n : Nat) : List Nat := [n % 256, n / 256 % 256]

def encodeU32 (n : Nat) : List Nat := encodeU16 (n % 65536) ++ encodeU16 (n / 65536 % 65536)

def encodeI16 (z : Int) : List Nat := encodeU16 (z % 65536).toNat

def readU16 : List Nat → Option (Nat × List Nat)
  | a :: b :: rest => some (a + 256 * b, rest)
  | _ => none

def readU32 (bs : List Nat) : Option (Nat × List Nat) := do
  let (lo, r1) ← readU16 bs
  let (hi, r2) ← readU16 r1
  pure (lo + 65536 * hi, r2)

def readI16 (bs : List Nat) : Option (Int × List Nat) :=
  (readU16 bs).map (fun p => (if p.1 < 32768 then (p.1 : Int) else (p.1 : Int) - 65536, p.2))

def encodeUpdates (ups : List Update) : List Nat :=
  ups.flatMap (fun u => encodeU32 u.1 ++ encodeU32 u.2)

def readUpdates : Nat → List Nat → Option (List Update × List Nat)
  | 0, bs => some ([], bs)
  | n + 1, bs => do
      let (i, r1) ← readU32 bs
      let (t, r2) ← readU32 r1
      let (rest, r3) ← readUpdates n r2
      pure ((i, t) :: rest, r3)

def encodeCells (cells : List Nat) : List Nat := cells.flatMap encodeU16

def readCells : Nat → List Nat → Option (List Nat × List Nat)
  | 0, bs => some ([], bs)
  | n + 1, bs => do
      let (c, r1) ← readU16 bs
      let (rest, r2) ← readCells n r1
      pure (c :: rest, r2)

def serialize (h : MapHistory) : List Nat :=
  encodeI16 h.minx ++ encodeI16 h.miny ++ encodeI16 h.maxx ++ encodeI16 h.maxy ++
  encodeU16 h.resolution ++ [2] ++
  encodeU16 h.updates.length ++ encodeUpdates h.updates ++ encodeCells h.data

/-- Consume the cell-width byte, which must be 2 (`np.uint16`). -/
def readCellWidth : List Nat → Option (List Nat)
  | c :: rest => if c = 2 then some rest else none
  | [] => none

/-- Require the end of the byte stream. -/
def readEnd : List Nat → Option Unit
  | [] => some ()
  | _ :: _ => none

def deserialize (bs : List Nat) : Option MapHistory := do
  let (bminx, r1) ← readI16 bs
  let (bminy, r2) ← readI16 r1
  let (bmaxx, r3) ← readI16 r2
  let (bmaxy, r4) ← readI16 r3
  let (res, r5) ← readU16 r4
  let r6 ← readCellWidth r5
  let (n, r7) ← readU16 r6
  let (ups, r8) ← readUpdates n r7
  let (cells, r9) ← readCells ((bmaxy - bminy).toNat * (bmaxx - bminx).toNat) r8
  let _ ← readEnd r9
  pure ⟨bminx, bminy, bmaxx, bmaxy, res, ups, cells⟩

/-- Embeds `MapHistory.write` (maphistory.py line 62): `simplify()` runs before
every persist, so the bytes on disk describe the simplified store. -/
def write (h : MapHistory) : List Nat := serialize h.simplifyUpdates

/-- Reloading a persisted store from its bytes. -/
def readStore (bs : List Nat) : Option MapHistory := deserialize bs

/-- The update a cell references: `self.updates[cell value]`. -/
def refUpd (h : MapHistory) (x y : Int) : Update :=
  h.updates.getD (h.cellVal x y) (0, 0)

end MapHistory

/-- Python dict lookup on an insertion-ordered association list where the
last write to a key wins. -/
def dictLookup {α : Type} (l : List (Nat × α)) (k : Nat) : Option α :=
  ((l.filter (fun p => p.1 == k)).getLast?).map (fun p => p.2)

/-! ## Level geometry compositor (levelrender.py)

Shapely geometries are modelled as finite sets of abstract points
(`Finset Nat`): `intersection` is `∩`, `is_empty` is `= ∅`, and a
prepared-geometry `intersects` test is nonemptiness of the intersection. -/

abbrev CGeom := Finset Nat

/-- Embeds `Cropper` (levelrender.py line 23): `geometry = None` means
unrestricted. -/
structure Cropper where
  geometry : Option CGeom
  deriving DecidableEq

/-- Embeds `Cropper.intersection` (levelrender.py line 28): the prepared
`intersects` test followed by the true intersection;
`empty_geometry_collection` is the empty set. -/
def Cropper.intersection (c : Cropper) (other : CGeom) : CGeom :=
  match c.geometry with
  | none => other
  | some g => if (g ∩ other).Nonempty then g ∩ other else (∅ : CGeom)

/-- The slice of a per-level `LevelGeometries` that the sublevel walk of
`LevelRenderData.rebuild` inspects: `holes` is `None` exactly for
non-primary (mounted-on-top) levels; `walls` and `altitudeareas` decide
inclusion in the output. -/
structure SubGeoms where
  pk : Nat
  holes : Option CGeom
  walls : CGeom
  altitudeareas : List CGeom
  deriving DecidableEq

/-- The cropper-choosing walk of `LevelRenderData.rebuild` (levelrender.py
lines 87-104), over `reversed(sublevels)` (top to bottom): count
hole-contributing primary layers, assign each sublevel the running crop
intersection once more than one primary layer has been seen (else an
unrestricted cropper), fold each `holes` geometry into the running crop,
and break once the running crop is empty.  The result is the
`level_crop_to` association (sublevel pk ↦ assigned cropper geometry). -/
def chooseCroppers : List SubGeoms → Option CGeom → Nat → List (Nat × Option CGeom)
  | [], _, _ => []
  | s :: rest, crop_to, count =>
      let count' := if s.holes.isSome then count + 1 else count
      let entry : Nat × Option CGeom := (s.pk, if count' > 1 then crop_to else none)
      match s.holes with
      | none => entry :: chooseCroppers rest crop_to count'
      | some holesGeom =>
          let crop' := match crop_to with
            | none => holesGeom
            | some c => c ∩ holesGeom
          if crop' = ∅ then [entry] else entry :: chooseCroppers rest (some crop') count'

/-- The rendering walk of `LevelRenderData.rebuild` (levelrender.py lines
109-210), over `sublevels` in list order (bottom to top), reduced to which
sublevel pks are appended to `render_data.levels`: a sublevel without an
assigned cropper breaks the loop; one whose cropped walls are empty and
whose cropped altitude-area list is empty is skipped (`continue`, line
164); every other sublevel is included. -/
def renderWalk (assign : List (Nat × Option CGeom)) : List SubGeoms → List Nat
  | [] => []
  | s :: rest =>
      match dictLookup assign s.pk with
      | none => []
      | some cg =>
          let c : Cropper := ⟨cg⟩
          let walls' := c.intersection s.walls
          let areas' := (s.altitudeareas.map (fun a => c.intersection a)).filter (fun a => a ≠ ∅)
          if walls' = ∅ ∧ areas' = [] then renderWalk assign rest
          else s.pk :: renderWalk assign rest

/-- Both walks of `rebuild` for one primary level: `subs` lists the
sublevels bottom-to-top (the order of the `sublevels` tuple; `levels` is
ordered by ascending base altitude), the crop walk runs over the reversed
list, and the render walk over the list itself.  Returns the pks included
in the level's `RenderData`. -/
def rebuildIncludedPks (subs : List SubGeoms) : List Nat :=
  renderWalk (chooseCroppers subs.reverse none 0) subs

/-! ## Spatial index (index.py)

Geometries are modelled by the list of bounding boxes of their simple
parts (a simple geometry is a single box); the external `rtree` library's
index is modelled as the multiset of `(id, box)` entries it holds, with
bounding-box intersection queries. -/

structure Box where
  x0 : Int
  y0 : Int
  x1 : Int
  y1 : Int
  deriving DecidableEq, Repr

/-- Closed bounding-box overlap, the `rtree` intersection criterion. -/
def Box.meets (a b : Box) : Bool :=
  a.x0 ≤ b.x1 && b.x0 ≤ a.x1 && a.y0 ≤ b.y1 && b.y0 ≤ a.y1

/-- A geometry as seen by the index code: the boxes of its simple parts. -/
abbrev IGeom := List Box

/-- Performs `dict[k] = v` on an insertion-ordered dict. -/
def assocSet {α : Type} (l : List (Nat × α)) (k : Nat) (v : α) : List (Nat × α) :=
  if (l.find? (fun p => p.1 == k)).isSome then
    l.map (fun p => if p.1 == k then (k, v) else p)
  else l ++ [(k, v)]

/-- Performs `dict.pop(k)`. -/
def assocRemove {α : Type} (l : List (Nat × α)) (k : Nat) : List (Nat × α) :=
  l.filter (fun p => p.1 != k)

/-- The rtree-backed `Index` (index.py lines 31-56): the library index as
its `(id, box)` entries plus the `_bounds` bookkeeping dict.  The
`_bounds` dict is only ever accessed by key (never iterated), so it is
embedded as a partial function from ids to recorded box lists. -/
structure RTreeIndex where
  idx : List (Nat × Box)
  boxes : Nat → Option (List Box)

namespace RTreeIndex

def empty : RTreeIndex := ⟨[], fun _ => none⟩

/-- One part insertion: `self._bounds.setdefault(value, []).append(b)` and
`self._index.insert(value, b)`. -/
def insertOne (t : RTreeIndex) (v : Nat) (b : Box) : RTreeIndex :=
  ⟨t.idx ++ [(v, b)],
   fun w => if w = v then some ((t.boxes v).getD [] ++ [b]) else t.boxes w⟩

/-- Embeds `Index.insert` (rtree variant): register each simple part's bounds
individually under the owning id. -/
def insert (t : RTreeIndex) (v : Nat) (g : IGeom) : RTreeIndex :=
  g.foldl (fun t b => t.insertOne v b) t

/-- Embeds `Index.delete` (rtree variant): pop the id's recorded boxes and delete
each from the library index.  Python raises `KeyError` for an unknown id;
valid call sequences never reach that branch, modelled as a no-op. -/
def delete (t : RTreeIndex) (v : Nat) : RTreeIndex :=
  match t.boxes v with
  | none => t
  | some bs => ⟨bs.foldl (fun l b => l.erase (v, b)) t.idx,
                fun w => if w = v then none else t.boxes w⟩

/-- One library query: ids of all entries whose box meets the query box. -/
def queryBox (t : RTreeIndex) (b : Box) : Finset Nat :=
  ((t.idx.filter (fun p => p.2.meets b)).map (fun p => p.1)).toFinset

/-- Embeds `Index.intersection` (rtree variant): per-part queries unioned. -/
def intersection (t : RTreeIndex) (q : IGeom) : Finset Nat :=
  q.foldl (fun acc b => acc ∪ t.queryBox b) ∅

end RTreeIndex

/-- The fallback `Index` (index.py lines 16-27): a plain dict of
geometries. -/
structure FallbackIndex where
  objects : List (Nat × IGeom)
  deriving DecidableEq, Repr

namespace FallbackIndex

def empty : FallbackIndex := ⟨[]⟩

def insert (t : FallbackIndex) (v : Nat) (g : IGeom) : FallbackIndex :=
  ⟨assocSet t.objects v g⟩

def delete (t : FallbackIndex) (v : Nat) : FallbackIndex :=
  ⟨assocRemove t.objects v⟩

/-- Embeds `Index.intersection` (fallback, index.py line 26): returns
`self.objects.values()` — every stored geometry, ignoring the query. -/
def intersection (t : FallbackIndex) (_g : IGeom) : List IGeom :=
  t.objects.map (fun p => p.2)

end FallbackIndex

/-- A call against the `Index` interface. -/
inductive IndexOp where
  | ins (v : Nat) (g : IGeom)
  | del (v : Nat)
  deriving DecidableEq, Repr

def runRTree (ops : List IndexOp) : RTreeIndex :=
  ops.foldl (fun t op => match op with
    | .ins v g => t.insert v g
    | .del v => t.delete v) RTreeIndex.empty

def runFallback (ops : List IndexOp) : FallbackIndex :=
  ops.foldl (fun t op => match op with
    | .ins v g => t.insert v g
    | .del v => t.delete v) FallbackIndex.empty

/-- The ids the rtree-backed index reports for one query box under its
contract: the ids with a live registered part box meeting it. -/
def liveQueryBox (live : List (Nat × Box)) (b : Box) : Finset Nat :=
  ((live.filter (fun p => p.2.meets b)).map (fun p => p.1)).toFinset

/-- The boxes currently registered for an id, in registration order. -/
def keyBoxes (live : List (Nat × Box)) (v : Nat) : List Box :=
  (live.filter (fun p => p.1 == v)).map (fun p => p.2)

/-- The coupling invariant between the rtree-backed index state and the
reference live-entry list. -/
def RInv (t : RTreeIndex) (live : List (Nat × Box)) : Prop :=
  t.idx = live ∧
  ∀ v, t.boxes v = if keyBoxes live v = [] then none else some (keyBoxes live v)

/-- The contract of the tree-backed index: for each query part box, the
ids with a live registered part box meeting it, unioned over parts. -/
def liveIntersection (live : List (Nat × Box)) (q : IGeom) : Finset Nat :=
  q.foldl (fun acc b => acc ∪ liveQueryBox live b) ∅

/-- Reference semantics of an op sequence: the live `(id, part box)`
entries after inserting each part and deleting every part of a deleted
id. -/
def liveStep (acc : List (Nat × Box)) : IndexOp → List (Nat × Box)
  | .ins v g => acc ++ g.map (fun b => (v, b))
  | .del v => acc.filter (fun p => p.1 != v)

def liveEntries (ops : List IndexOp) : List (Nat × Box) :=
  ops.foldl liveStep []

/-- An op sequence is valid when every `delete` targets an id with at
least one registered part (Python raises `KeyError` otherwise). -/
def validFrom (live : List (Nat × Box)) : List IndexOp → Bool
  | [] => true
  | .ins v g :: rest => validFrom (liveStep live (.ins v g)) rest
  | .del v :: rest =>
      !(live.filter (fun p => p.1 == v)).isEmpty && validFrom (liveStep live (.del v)) rest

def validOps (ops : List IndexOp) : Bool := validFrom [] ops

/-! ## Tile cache proxy (wsgi.py) -/

/-- Per-level data in a cache package: the composite history and the
restrictions grid (modelled from the spec: the latter records, per cell,
which access restriction is present there; the grid embedding of
`MapHistory` is reused, its `updates` field unused). -/
structure LevelData where
  history : MapHistory
  restrictions : MapHistory

/-- Modelled from the spec: `get_tile_bounds(zoom, x, y)` from the missing
`c3nav.mapdata.utils.tiles`; only its determinism in `(zoom, x, y)`
matters to the claims. -/
def get_tile_bounds (zoom x y : Int) : Int × Int × Int × Int :=
  (x * (zoom + 3), y * (zoom + 3), (x + 1) * (zoom + 3), (y + 1) * (zoom + 3))

/-- Modelled from the spec: the base cache key is derived from the
`last_update` result ("content-addressed"). -/
def build_base_cache_key (u : Update) : List Nat := [u.1, u.2]

/-- Modelled from the spec: the access key is a canonical encoding of the
resolved permission set. -/
def build_access_cache_key (ap : Finset Nat) : List Nat := ap.sort (· ≤ ·)

/-- A content identifier.  Modelled from the spec: "a cryptographic digest
over (level, zoom, x, y, base key, access key, secret)" — embedded as the
injective tuple of the digested fields. -/
abbrev Etag := (Int × Int × Int × Int) × List Nat × List Nat × List Nat

/-- Modelled from the spec: `build_tile_etag` digests exactly these
inputs. -/
def build_tile_etag (level zoom x y : Int) (baseKey accessKey secret : List Nat) : Etag :=
  ((level, zoom, x, y), baseKey, accessKey, secret)

/-- The cache-key construction slice of `TileServer.__call__` (wsgi.py
lines 195-221): compute tile bounds, the base key from the history, the
access key from the decoded cookie permissions intersected with the
restrictions present in the tile's cell range (or the constant `'0'` key
when no access cookie is present), the ETag, and the tile-bytes cache key
(request path plus ETag).  `cookiePerms` is the decoded output of
`parse_tile_access_cookie`, `none` when no cookie matched. -/
def tileEtagAndCacheKey (ld : LevelData) (secret : List Nat) (level zoom x y : Int)
    (cookiePerms : Option (Finset Nat)) : Etag × ((Int × Int × Int × Int) × Etag) :=
  let b := get_tile_bounds zoom x y
  let lastUpd := ld.history.last_update b.1 b.2.1 b.2.2.1 b.2.2.2
  let baseKey := build_base_cache_key lastUpd
  let accessKey :=
    match cookiePerms with
    | none => [0]
    | some perms =>
        let access_permissions :=
          perms ∩ (ld.restrictions.slice b.1 b.2.2.1 b.2.1 b.2.2.2).toFinset
        build_access_cache_key access_permissions
  let tile_etag := build_tile_etag level zoom x y baseKey accessKey secret
  (tile_etag, ((level, zoom, x, y), tile_etag))

/-- The worker state touched by `TileServer.load_cache_package` (wsgi.py
lines 91-137): the in-memory package, its upstream ETag, the filename of
the pickled copy, and the shared memcached pointer
`cache['cache_package_filename']`.  Packages, etags and filenames are
abstract `Nat` identifiers. -/
structure TSState where
  cache_package : Option Nat
  cache_package_etag : Option Nat
  cache_package_filename : Option Nat
  shared_filename : Option Nat
  deriving DecidableEq, Repr

/-- The upstream response to one refresh attempt. -/
inductive FetchResult where
  | netError
  | status403
  | status304
  | httpError
  | ok (content : Nat) (etag : Option Nat)
  deriving DecidableEq, Repr

/-- Embeds `TileServer.load_cache_package` as a state transition.  `parse` is
`CachePackage.read` (`none` = parse failure), `storeOk` says whether
pickling the package and publishing the filename succeeds, `newName` is
the timestamped filename.  Returns the new state and the boolean the
method returns; every exception of the source is caught, so the function
is total. -/
def load_cache_package (st : TSState) (r : FetchResult) (parse : Nat → Option Nat)
    (storeOk : Bool) (newName : Nat) : TSState × Bool :=
  match r with
  | .netError => (st, false)
  | .status403 => (st, false)
  | .status304 =>
      match st.cache_package with
      | some _ => ({ st with shared_filename := st.cache_package_filename }, true)
      | none => (st, false)
  | .httpError => (st, false)
  | .ok content etag =>
      match parse content with
      | none => (st, false)
      | some pkg =>
          let st1 := { st with cache_package := some pkg, cache_package_etag := etag }
          if storeOk then
            ({ st1 with cache_package_filename := some newName,
                        shared_filename := some newName }, true)
          else
            -- the filename is assigned (line 126) before pickling can fail,
            -- and the etag is reset (line 134) in the handler
            ({ st1 with cache_package_filename := some newName,
                        cache_package_etag := none }, false)

/-! ## Lemmas: grids, slices and geometry bounds -/

theorem gridOf_length (w h : Nat) (f : Nat → Nat → Nat) : (gridOf w h f).length = h * w := by
  simp [gridOf]

theorem gridOf_getD (w h : Nat) (f : Nat → Nat → Nat) (x y : Nat) (hx : x < w) (hy : y < h) :
    (gridOf w h f).getD (y * w + x) 0 = f x y := by
  have hw : 0 < w := by omega
  have hi : y * w + x < h * w := by
    calc y * w + x < y * w + w := by omega
    _ = (y + 1) * w := by ring
    _ ≤ h * w := Nat.mul_le_mul_right w (by omega)
  have hmod : (y * w + x) % w = x := by
    rw [Nat.add_comm, Nat.add_mul_mod_self_right x y w]; exact Nat.mod_eq_of_lt hx
  have hdiv : (y * w + x) / w = y := by
    rw [Nat.add_comm, Nat.add_mul_div_right x y hw, Nat.div_eq_of_lt hx]; omega
  rw [gridOf, List.getD_eq_getElem?_getD, List.getElem?_map, List.getElem?_range hi]
  simp [hmod, hdiv]

theorem mem_gridOf (w h : Nat) (f : Nat → Nat → Nat) (v : Nat) (hv : v ∈ gridOf w h f) :
    ∃ x y, x < w ∧ y < h ∧ v = f x y := by
  simp only [gridOf, List.mem_map, List.mem_range] at hv
  obtain ⟨i, hi, rfl⟩ := hv
  have hw : 0 < w := by
    rcases Nat.eq_zero_or_pos w with hw0 | hw
    · subst hw0; simp at hi
    · exact hw
  exact ⟨i % w, i / w, Nat.mod_lt i hw, (Nat.div_lt_iff_lt_mul hw).mpr hi, rfl⟩

theorem getD_mem_or (l : List Nat) (i d : Nat) : l.getD i d ∈ l ∨ l.getD i d = d := by
  by_cases hi : i < l.length
  · left; rw [List.getD_eq_getElem l d hi]; exact List.getElem_mem hi
  · right; exact List.getD_eq_default l d (Nat.le_of_not_lt hi)

theorem mem_intRange {a b z : Int} : z ∈ MapHistory.intRange a b ↔ a ≤ z ∧ z < b := by
  constructor
  · intro hz
    rcases List.mem_map.mp hz with ⟨i, hi, hzeq⟩
    rw [List.mem_range] at hi
    simp only [Int.ofNat_eq_coe] at hzeq
    omega
  · intro hz
    refine List.mem_map.mpr ⟨(z - a).toNat, ?_, ?_⟩
    · rw [List.mem_range]; omega
    · simp only [Int.ofNat_eq_coe]; omega

namespace MapHistory

/-- Reading a cell of a grid freshly built by `gridOf` evaluates the
generating function at the cell's relative coordinates. -/
theorem cellVal_of_gridOf (hst : MapHistory) (F : Nat → Nat → Nat)
    (hdata : hst.data = gridOf hst.width hst.height F) {x y : Int} (hin : hst.inBounds x y) :
    hst.cellVal x y = F (x - hst.minx).toNat (y - hst.miny).toNat := by
  obtain ⟨h1, h2, h3, h4⟩ := hin
  rw [cellVal, hdata, cellIdx]
  exact gridOf_getD _ _ _ _ _ (by simp only [width]; omega) (by simp only [height]; omega)

theorem fit_bounds_data (h : MapHistory) (a b c d : Int) :
    (h.fit_bounds a b c d).data =
      gridOf (h.fit_bounds a b c d).width (h.fit_bounds a b c d).height
        (fun rx ry =>
          if h.inBounds (min h.minx a + rx) (min h.miny b + ry) then
            h.cellVal (min h.minx a + rx) (min h.miny b + ry)
          else 0) := rfl

theorem setCells_data (h : MapHistory) (g : RGeom) (v : Nat) :
    (h.setCells g v).data =
      gridOf h.width h.height
        (fun rx ry =>
          if (h.minx + rx, h.miny + ry) ∈ g then v
          else h.cellVal (h.minx + rx) (h.miny + ry)) := rfl

theorem fit_bounds_fields (h : MapHistory) (a b c d : Int) :
    (h.fit_bounds a b c d).minx = min h.minx a ∧ (h.fit_bounds a b c d).miny = min h.miny b ∧
    (h.fit_bounds a b c d).maxx = max h.maxx c ∧ (h.fit_bounds a b c d).maxy = max h.maxy d ∧
    (h.fit_bounds a b c d).resolution = h.resolution ∧
    (h.fit_bounds a b c d).updates = h.updates :=
  ⟨rfl, rfl, rfl, rfl, rfl, rfl⟩

theorem fit_bounds_data_length (h : MapHistory) (a b c d : Int) :
    (h.fit_bounds a b c d).data.length =
      (h.fit_bounds a b c d).height * (h.fit_bounds a b c d).width := by
  simp [fit_bounds, gridOf_length, width, height]

theorem fit_bounds_inBounds (h : MapHistory) (a b c d : Int) {x y : Int}
    (hin : h.inBounds x y) : (h.fit_bounds a b c d).inBounds x y := by
  obtain ⟨h1, h2, h3, h4⟩ := hin
  refine ⟨?_, ?_, ?_, ?_⟩ <;> simp [fit_bounds] <;> omega

theorem cellVal_fit_bounds (h : MapHistory) (a b c d : Int) {x y : Int}
    (hin : h.inBounds x y) : (h.fit_bounds a b c d).cellVal x y = h.cellVal x y := by
  obtain ⟨h1, h2, h3, h4⟩ := hin
  rw [cellVal_of_gridOf _ _ (fit_bounds_data h a b c d) (fit_bounds_inBounds h a b c d ⟨h1, h2, h3, h4⟩)]
  have ex : min h.minx a + (((x - (h.fit_bounds a b c d).minx).toNat : Nat) : Int) = x := by
    simp only [fit_bounds]; omega
  have ey : min h.miny b + (((y - (h.fit_bounds a b c d).miny).toNat : Nat) : Int) = y := by
    simp only [fit_bounds]; omega
  rw [ex, ey, if_pos ⟨h1, h2, h3, h4⟩]

theorem mem_data_fit_bounds (h : MapHistory) (a b c d : Int) (w : Nat)
    (hw : w ∈ (h.fit_bounds a b c d).data) : w ∈ h.data ∨ w = 0 := by
  rw [fit_bounds_data] at hw
  obtain ⟨rx, ry, _, _, rfl⟩ := mem_gridOf _ _ _ _ hw
  split
  · exact (getD_mem_or h.data _ 0).imp id id
  · right; rfl

theorem setCells_fields (h : MapHistory) (g : RGeom) (v : Nat) :
    (h.setCells g v).minx = h.minx ∧ (h.setCells g v).miny = h.miny ∧
    (h.setCells g v).maxx = h.maxx ∧ (h.setCells g v).maxy = h.maxy ∧
    (h.setCells g v).resolution = h.resolution ∧ (h.setCells g v).updates = h.updates :=
  ⟨rfl, rfl, rfl, rfl, rfl, rfl⟩

theorem setCells_inBounds_iff (h : MapHistory) (g : RGeom) (v : Nat) (x y : Int) :
    (h.setCells g v).inBounds x y ↔ h.inBounds x y := Iff.rfl

theorem cellVal_setCells (h : MapHistory) (g : RGeom) (v : Nat) {x y : Int}
    (hin : h.inBounds x y) :
    (h.setCells g v).cellVal x y = if (x, y) ∈ g then v else h.cellVal x y := by
  obtain ⟨h1, h2, h3, h4⟩ := hin
  have hd : (h.setCells g v).data = gridOf (h.setCells g v).width (h.setCells g v).height
      (fun rx ry =>
        if (h.minx + rx, h.miny + ry) ∈ g then v
        else h.cellVal (h.minx + rx) (h.miny + ry)) := rfl
  rw [cellVal_of_gridOf _ _ hd ((setCells_inBounds_iff h g v x y).mpr ⟨h1, h2, h3, h4⟩)]
  have ex : h.minx + (((x - (h.setCells g v).minx).toNat : Nat) : Int) = x := by
    simp only [setCells]; omega
  have ey : h.miny + (((y - (h.setCells g v).miny).toNat : Nat) : Int) = y := by
    simp only [setCells]; omega
  rw [ex, ey]

theorem mem_data_setCells (h : MapHistory) (g : RGeom) (v : Nat) (w : Nat)
    (hw : w ∈ (h.setCells g v).data) : w = v ∨ w ∈ h.data ∨ w = 0 := by
  rw [setCells_data] at hw
  obtain ⟨rx, ry, _, _, rfl⟩ := mem_gridOf _ _ _ _ hw
  split
  · left; rfl
  · right; exact (getD_mem_or h.data _ 0).imp id id

theorem foldr_min_le_init (l : List Int) (init : Int) : l.foldr min init ≤ init := by
  induction l with
  | nil => exact le_refl _
  | cons a tl ih => exact le_trans (min_le_right _ _) ih

theorem foldr_min_le_mem (l : List Int) (init : Int) {z : Int} (hz : z ∈ l) :
    l.foldr min init ≤ z := by
  induction l with
  | nil => cases hz
  | cons a tl ih =>
      rcases List.mem_cons.mp hz with rfl | hz'
      · exact min_le_left _ _
      · exact le_trans (min_le_right _ _) (ih hz')

theorem init_le_foldr_max (l : List Int) (init : Int) : init ≤ l.foldr max init := by
  induction l with
  | nil => exact le_refl _
  | cons a tl ih => exact le_trans ih (le_max_right _ _)

theorem mem_le_foldr_max (l : List Int) (init : Int) {z : Int} (hz : z ∈ l) :
    z ≤ l.foldr max init := by
  induction l with
  | nil => cases hz
  | cons a tl ih =>
      rcases List.mem_cons.mp hz with rfl | hz'
      · exact le_max_left _ _
      · exact le_trans (ih hz') (le_max_right _ _)

theorem fitGeom_updates (h : MapHistory) (g : RGeom) : (h.fitGeom g).updates = h.updates := by
  cases g with
  | nil => rfl
  | cons c cs => rfl

theorem fitGeom_resolution (h : MapHistory) (g : RGeom) :
    (h.fitGeom g).resolution = h.resolution := by
  cases g with
  | nil => rfl
  | cons c cs => rfl

theorem cellVal_fitGeom (h : MapHistory) (g : RGeom) {x y : Int} (hin : h.inBounds x y) :
    (h.fitGeom g).cellVal x y = h.cellVal x y := by
  cases g with
  | nil => rfl
  | cons c cs => exact cellVal_fit_bounds h _ _ _ _ hin

theorem fitGeom_inBounds_mono (h : MapHistory) (g : RGeom) {x y : Int} (hin : h.inBounds x y) :
    (h.fitGeom g).inBounds x y := by
  cases g with
  | nil => exact hin
  | cons c cs => exact fit_bounds_inBounds h _ _ _ _ hin

theorem mem_data_fitGeom (h : MapHistory) (g : RGeom) (w : Nat)
    (hw : w ∈ (h.fitGeom g).data) : w ∈ h.data ∨ w = 0 := by
  cases g with
  | nil => exact Or.inl hw
  | cons c cs => exact mem_data_fit_bounds h _ _ _ _ w hw

/-- Every cell of the geometry is inside the grown bounds. -/
theorem fitGeom_inBounds (h : MapHistory) (g : RGeom) {c : Int × Int} (hc : c ∈ g) :
    (h.fitGeom g).inBounds c.1 c.2 := by
  cases g with
  | nil => cases hc
  | cons c0 cs =>
      have hminx : cs.foldr (fun p a => min p.1 a) c0.1 ≤ c.1 := by
        rw [← List.foldr_map (fun p : Int × Int => p.1) min cs c0.1]
        rcases List.mem_cons.mp hc with rfl | hc'
        · exact foldr_min_le_init _ _
        · exact foldr_min_le_mem _ _ (List.mem_map_of_mem _ hc')
      have hminy : cs.foldr (fun p a => min p.2 a) c0.2 ≤ c.2 := by
        rw [← List.foldr_map (fun p : Int × Int => p.2) min cs c0.2]
        rcases List.mem_cons.mp hc with rfl | hc'
        · exact foldr_min_le_init _ _
        · exact foldr_min_le_mem _ _ (List.mem_map_of_mem _ hc')
      have hmaxx : c.1 ≤ cs.foldr (fun p a => max p.1 a) c0.1 := by
        rw [← List.foldr_map (fun p : Int × Int => p.1) max cs c0.1]
        rcases List.mem_cons.mp hc with rfl | hc'
        · exact init_le_foldr_max _ _
        · exact mem_le_foldr_max _ _ (List.mem_map_of_mem _ hc')
      have hmaxy : c.2 ≤ cs.foldr (fun p a => max p.2 a) c0.2 := by
        rw [← List.foldr_map (fun p : Int × Int => p.2) max cs c0.2]
        rcases List.mem_cons.mp hc with rfl | hc'
        · exact init_le_foldr_max _ _
        · exact mem_le_foldr_max _ _ (List.mem_map_of_mem _ hc')
      refine ⟨?_, ?_, ?_, ?_⟩ <;> simp only [fitGeom, fit_bounds] <;> omega

theorem setGeometry_updates (h : MapHistory) (g : RGeom) (v : Nat) :
    (h.setGeometry g v).updates = h.updates := fitGeom_updates h g

theorem setGeometry_resolution (h : MapHistory) (g : RGeom) (v : Nat) :
    (h.setGeometry g v).resolution = h.resolution := fitGeom_resolution h g

/-- A covered cell is in bounds after `setGeometry` and holds `v`. -/
theorem setGeometry_covered (h : MapHistory) (g : RGeom) (v : Nat) {c : Int × Int}
    (hc : c ∈ g) :
    (h.setGeometry g v).inBounds c.1 c.2 ∧ (h.setGeometry g v).cellVal c.1 c.2 = v := by
  have hin : (h.fitGeom g).inBounds c.1 c.2 := fitGeom_inBounds h g hc
  constructor
  · exact (setCells_inBounds_iff _ g v c.1 c.2).mpr hin
  · rw [setGeometry, cellVal_setCells _ g v hin]
    simp [hc]

theorem mem_data_setGeometry (h : MapHistory) (g : RGeom) (v : Nat) (w : Nat)
    (hw : w ∈ (h.setGeometry g v).data) : w = v ∨ w ∈ h.data ∨ w = 0 := by
  rcases mem_data_setCells _ g v w hw with hv | hv | hv
  · exact Or.inl hv
  · rcases mem_data_fitGeom h g w hv with hv' | hv'
    · exact Or.inr (Or.inl hv')
    · exact Or.inr (Or.inr hv')
  · exact Or.inr (Or.inr hv)

/-- Characterization of the values returned by a rectangle slice. -/
theorem mem_slice (h : MapHistory) (x0 x1 y0 y1 : Int) (w : Nat) :
    w ∈ h.slice x0 x1 y0 y1 ↔
      ∃ x y : Int, (max x0 h.minx ≤ x ∧ x < min x1 h.maxx) ∧
        (max y0 h.miny ≤ y ∧ y < min y1 h.maxy) ∧ h.cellVal x y = w := by
  simp only [slice, List.mem_flatMap, List.mem_map]
  constructor
  · rintro ⟨y, hy, x, hx, rfl⟩
    exact ⟨x, y, mem_intRange.mp hx, mem_intRange.mp hy, rfl⟩
  · rintro ⟨x, y, hx, hy, rfl⟩
    exact ⟨y, mem_intRange.mpr hy, x, mem_intRange.mpr hx, rfl⟩

theorem slice_elem_cases (h : MapHistory) (x0 x1 y0 y1 : Int) (w : Nat)
    (hw : w ∈ h.slice x0 x1 y0 y1) : w ∈ h.data ∨ w = 0 := by
  rcases (mem_slice h x0 x1 y0 y1 w).mp hw with ⟨x, y, _, _, rfl⟩
  exact (getD_mem_or h.data _ 0).imp id id

/-! ### `add_geometry` lemmas -/

theorem foldr_max_le_of_ub (l : List Nat) (M : Nat) (hub : ∀ w ∈ l, w ≤ M) :
    l.foldr max 0 ≤ M := by
  induction l with
  | nil => exact Nat.zero_le M
  | cons a tl ih =>
      exact max_le (hub a (List.mem_cons_self a tl))
        (ih (fun w hw => hub w (List.mem_cons_of_mem a hw)))

theorem le_foldr_max_of_mem (l : List Nat) {M : Nat} (hM : M ∈ l) : M ≤ l.foldr max 0 := by
  induction l with
  | nil => cases hM
  | cons a tl ih =>
      rcases List.mem_cons.mp hM with rfl | hM'
      · exact le_max_left _ _
      · exact le_trans (ih hM') (le_max_right _ _)

theorem foldr_max_eq (l : List Nat) (M : Nat) (hM : M ∈ l) (hub : ∀ w ∈ l, w ≤ M) :
    l.foldr max 0 = M :=
  le_antisymm (foldr_max_le_of_ub l M hub) (le_foldr_max_of_mem l hM)

/-- If the most recently appended update already equals `u`, the list is
unchanged; otherwise `u` is appended. -/
theorem add_geometry_updates (h : MapHistory) (g : RGeom) (u : Update) :
    (h.add_geometry g u).updates = h.updates ∧ h.updates.getLast? = some u ∨
    (h.add_geometry g u).updates = h.updates ++ [u] ∧ h.updates.getLast? ≠ some u := by
  rw [add_geometry]
  split
  · exact Or.inl ⟨setGeometry_updates _ g _, by assumption⟩
  · exact Or.inr ⟨setGeometry_updates _ g _, by assumption⟩

theorem add_geometry_getLast (h : MapHistory) (g : RGeom) (u : Update) :
    (h.add_geometry g u).updates.getLast? = some u := by
  rcases add_geometry_updates h g u with ⟨he, hl⟩ | ⟨he, _⟩
  · rw [he]; exact hl
  · rw [he]; exact List.getLast?_concat _

theorem add_geometry_head (h : MapHistory) (g : RGeom) (u : Update)
    (hne : h.updates ≠ []) : (h.add_geometry g u).updates[0]? = h.updates[0]? := by
  rcases add_geometry_updates h g u with ⟨he, _⟩ | ⟨he, _⟩
  · rw [he]
  · rw [he, List.getElem?_append]
    simp [List.length_pos.mpr hne]

theorem add_geometry_len_ge (h : MapHistory) (g : RGeom) (u : Update) :
    h.updates.length ≤ (h.add_geometry g u).updates.length := by
  rcases add_geometry_updates h g u with ⟨he, _⟩ | ⟨he, _⟩ <;> simp [he]

theorem add_geometry_ne_nil (h : MapHistory) (g : RGeom) (u : Update) :
    (h.add_geometry g u).updates ≠ [] := by
  intro hc
  have := add_geometry_getLast h g u
  rw [hc] at this
  simp at this

theorem add_geometry_wf (h : MapHistory) (g : RGeom) (u : Update)
    (hwf : ∀ v ∈ h.data, v < h.updates.length) :
    ∀ v ∈ (h.add_geometry g u).data, v < (h.add_geometry g u).updates.length := by
  intro v hv
  have hlen1 : 0 < (h.add_geometry g u).updates.length :=
    List.length_pos.mpr (add_geometry_ne_nil h g u)
  have hge := add_geometry_len_ge h g u
  rw [add_geometry] at hv ⊢
  rcases mem_data_setGeometry _ g _ v hv with rfl | hv' | rfl
  · rw [setGeometry_updates]
    rw [add_geometry] at hlen1
    rw [setGeometry_updates] at hlen1
    omega
  · rw [setGeometry_updates]
    have hdata : (if h.updates.getLast? = some u then h
        else { h with updates := h.updates ++ [u] }).data = h.data := by
      split <;> rfl
    rw [hdata] at hv'
    have : h.updates.length ≤ (if h.updates.getLast? = some u then h
        else { h with updates := h.updates ++ [u] }).updates.length := by
      split <;> simp
    exact lt_of_lt_of_le (hwf v hv') this
  · rw [setGeometry_updates]
    rw [add_geometry, setGeometry_updates] at hlen1
    exact hlen1

/-! ### `simplify` lemmas -/

theorem map_getD_range (l : List Update) :
    (List.range l.length).map (fun i => l.getD i (0, 0)) = l := by
  apply List.ext_getElem?
  intro i
  by_cases hi : i < l.length
  · simp [List.getElem?_map, List.getElem?_range, hi, List.getD_eq_getElem?_getD,
      List.getElem?_eq_getElem hi]
  · rw [List.getElem?_map, List.getElem?_eq_none (by simpa using Nat.le_of_not_lt hi),
      List.getElem?_eq_none (Nat.le_of_not_lt hi)]
    rfl

theorem indexOf_range (n j : Nat) (hj : j < n) : (List.range n).indexOf j = j := by
  have := List.indexOf_getElem (List.nodup_range n) j (by simpa using hj)
  simpa using this

theorem mem_simpKept (h : MapHistory) (i : Nat) :
    i ∈ h.simpKept ↔ i < h.updates.length ∧ (i = 0 ∨ i ∈ h.data) := by
  simp [simpKept, List.mem_filter, List.mem_range]

theorem simpKept_nodup (h : MapHistory) : h.simpKept.Nodup :=
  (List.nodup_range _).filter _

theorem simpKept_pairwise (h : MapHistory) : h.simpKept.Pairwise (· < ·) :=
  List.Pairwise.sublist (List.filter_sublist _) (List.pairwise_lt_range _)

theorem simpKept_lt (h : MapHistory) (i : Nat) (hi : i ∈ h.simpKept) :
    i < h.updates.length := ((mem_simpKept h i).mp hi).1

theorem simpKept_length_le (h : MapHistory) : h.simpKept.length ≤ h.updates.length := by
  calc h.simpKept.length ≤ (List.range h.updates.length).length := List.length_filter_le _ _
  _ = h.updates.length := List.length_range _

theorem filterMap_getD (ups : List Update) (ks : List Nat)
    (hk : ∀ i ∈ ks, i < ups.length) :
    ks.filterMap (fun i => ups[i]?) = ks.map (fun i => ups.getD i (0, 0)) := by
  induction ks with
  | nil => rfl
  | cons a tl ih =>
      have ha : a < ups.length := hk a (List.mem_cons_self a tl)
      rw [List.filterMap_cons, List.map_cons, List.getElem?_eq_getElem ha,
        ih (fun i hi => hk i (List.mem_cons_of_mem a hi)), List.getD_eq_getElem ups (0, 0) ha]

theorem simplify_updates_eq (h : MapHistory) :
    (h.simplifyUpdates).updates = h.simpKept.map (fun i => h.updates.getD i (0, 0)) :=
  filterMap_getD _ _ (fun i hi => simpKept_lt h i hi)

theorem simplify_updates_length (h : MapHistory) :
    (h.simplifyUpdates).updates.length = h.simpKept.length := by
  rw [simplify_updates_eq, List.length_map]

theorem simplify_data_eq (h : MapHistory) :
    (h.simplifyUpdates).data = h.data.map h.simpVal := rfl

theorem simplify_fields (h : MapHistory) :
    (h.simplifyUpdates).minx = h.minx ∧ (h.simplifyUpdates).miny = h.miny ∧
    (h.simplifyUpdates).maxx = h.maxx ∧ (h.simplifyUpdates).maxy = h.maxy ∧
    (h.simplifyUpdates).resolution = h.resolution :=
  ⟨rfl, rfl, rfl, rfl, rfl⟩

theorem zero_mem_simpKept (h : MapHistory) (hne : h.updates ≠ []) : 0 ∈ h.simpKept :=
  (mem_simpKept h 0).mpr ⟨List.length_pos.mpr hne, Or.inl rfl⟩

theorem simpKept_indexOf_zero (h : MapHistory) (h0 : 0 ∈ h.simpKept) :
    h.simpKept.indexOf 0 = 0 := by
  have hp := simpKept_pairwise h
  cases hk : h.simpKept with
  | nil => rw [hk] at h0; cases h0
  | cons a tl =>
      rw [hk] at h0 hp
      rcases List.mem_cons.mp h0 with h0' | h0'
      · subst h0'; exact List.indexOf_cons_self _ _
      · exact absurd ((List.pairwise_cons.mp hp).1 0 h0') (by omega)

theorem simpVal_zero (h : MapHistory) : h.simpVal 0 = 0 := by
  rw [simpVal]
  split
  · exact simpKept_indexOf_zero h (by assumption)
  · rfl

theorem simplify_cellVal (h : MapHistory) (x y : Int) :
    (h.simplifyUpdates).cellVal x y = h.simpVal (h.cellVal x y) := by
  have hidx : (h.simplifyUpdates).cellIdx x y = h.cellIdx x y := rfl
  rw [cellVal, cellVal, hidx, simplify_data_eq]
  by_cases hi : h.cellIdx x y < h.data.length
  · rw [List.getD_eq_getElem _ _ (by simpa using hi), List.getElem_map,
      List.getD_eq_getElem _ _ hi]
  · rw [List.getD_eq_default _ _ (by simpa using Nat.le_of_not_lt hi),
      List.getD_eq_default _ _ (Nat.le_of_not_lt hi), simpVal_zero]

theorem simplify_getD_lookup (h : MapHistory) (v : Nat)
    (hv : v = 0 ∨ v ∈ h.data ∨ h.updates.length ≤ v) :
    (h.simplifyUpdates).updates.getD (h.simpVal v) (0, 0) = h.updates.getD v (0, 0) := by
  by_cases hvk : v ∈ h.simpKept
  · have hlt := List.indexOf_lt_length.mpr hvk
    rw [simpVal, if_pos hvk, simplify_updates_eq,
      List.getD_eq_getElem _ _ (by simpa using hlt), List.getElem_map,
      List.getElem_indexOf hlt]
  · rw [simpVal, if_neg hvk]
    have hge : h.updates.length ≤ v := by
      rcases hv with rfl | hvd | hge
      · by_contra hc
        have hne : h.updates ≠ [] := by
          intro hnil
          rw [hnil] at hc
          simp at hc
        exact hvk (zero_mem_simpKept h hne)
      · by_contra hc
        exact hvk ((mem_simpKept h v).mpr ⟨Nat.lt_of_not_le hc, Or.inr hvd⟩)
      · exact hge
    have h1 : (h.simplifyUpdates).updates.length ≤ v := by
      rw [simplify_updates_length]
      exact le_trans (simpKept_length_le h) hge
    rw [List.getD_eq_default _ _ h1, List.getD_eq_default _ _ hge]

theorem simplify_refUpd (h : MapHistory) (x y : Int)
    (hv : h.cellVal x y = 0 ∨ h.cellVal x y ∈ h.data ∨ h.updates.length ≤ h.cellVal x y) :
    (h.simplifyUpdates).refUpd x y = h.refUpd x y := by
  rw [refUpd, refUpd, simplify_cellVal, simplify_getD_lookup h _ hv]

theorem simplify_updates_mem (h : MapHistory) (u : Update)
    (hu : u ∈ (h.simplifyUpdates).updates) : u ∈ h.updates := by
  rw [simplify_updates_eq] at hu
  rcases List.mem_map.mp hu with ⟨i, hi, rfl⟩
  have hlt := simpKept_lt h i hi
  rw [List.getD_eq_getElem _ _ hlt]
  exact List.getElem_mem hlt

theorem simpKept_head (h : MapHistory) (hne : h.updates ≠ []) :
    ∃ tl, h.simpKept = 0 :: tl := by
  obtain ⟨n, hn⟩ : ∃ n, h.updates.length = n + 1 := by
    cases hL : h.updates.length with
    | zero => exact absurd (List.length_eq_zero.mp hL) hne
    | succ n => exact ⟨n, rfl⟩
  rw [simpKept, hn, List.range_succ_eq_map, List.filter_cons,
    if_pos (by simp : decide (0 = 0 ∨ 0 ∈ h.data) = true)]
  exact ⟨_, rfl⟩

theorem simplify_head (h : MapHistory) (hne : h.updates ≠ []) :
    (h.simplifyUpdates).updates[0]? = h.updates[0]? := by
  obtain ⟨tl, htl⟩ := simpKept_head h hne
  rw [simplify_updates_eq, htl, List.map_cons]
  rw [List.getElem?_cons_zero, List.getD_eq_getElem _ _ (List.length_pos.mpr hne),
    List.getElem?_eq_getElem (List.length_pos.mpr hne)]

theorem simplify_ne_nil (h : MapHistory) (hne : h.updates ≠ []) :
    (h.simplifyUpdates).updates ≠ [] := by
  intro hc
  have := simplify_head h hne
  rw [hc] at this
  rcases List.exists_cons_of_ne_nil hne with ⟨u, tl, htl⟩
  rw [htl] at this
  simp at this

/-- After one `simplify`, every remaining update index is live (or 0), so
a second `simplify` keeps everything. -/
theorem simpKept_simplify (h : MapHistory) (hne : h.updates ≠ []) :
    (h.simplifyUpdates).simpKept = List.range h.simpKept.length := by
  rw [simpKept, simplify_updates_length]
  apply List.filter_eq_self.mpr
  intro j hj
  rw [List.mem_range] at hj
  simp only [decide_eq_true_eq]
  by_cases hj0 : j = 0
  · exact Or.inl hj0
  · right
    have hjlt : j < h.simpKept.length := hj
    have hmem : h.simpKept[j] ∈ h.simpKept := List.getElem_mem hjlt
    have hkpos : 0 < h.simpKept[j] := by
      obtain ⟨tl, htl⟩ := simpKept_head h hne
      have hp := simpKept_pairwise h
      have h0lt : h.simpKept[0] < h.simpKept[j] := by
        have := List.pairwise_iff_getElem.mp hp 0 j (by omega) hjlt (by omega)
        exact this
      have h00 : h.simpKept[0] = 0 := by
        have : h.simpKept[0]? = some 0 := by rw [htl, List.getElem?_cons_zero]
        have h0lt' : 0 < h.simpKept.length := by omega
        rw [List.getElem?_eq_getElem h0lt'] at this
        exact Option.some.inj this
      omega
    have hdata : h.simpKept[j] ∈ h.data := by
      rcases ((mem_simpKept h _).mp hmem).2 with hz | hd
      · omega
      · exact hd
    have hval : h.simpVal h.simpKept[j] = j := by
      rw [simpVal, if_pos hmem]
      exact List.indexOf_getElem (simpKept_nodup h) j hjlt
    rw [simplify_data_eq]
    exact hval ▸ List.mem_map_of_mem h.simpVal hdata

/-- Idempotence of `simplify`. -/
theorem simplify_idem (h : MapHistory) (hne : h.updates ≠ []) :
    (h.simplifyUpdates).simplifyUpdates = h.simplifyUpdates := by
  have hkept := simpKept_simplify h hne
  have hups : ((h.simplifyUpdates).simplifyUpdates).updates = (h.simplifyUpdates).updates := by
    rw [simplify_updates_eq, hkept, ← simplify_updates_length, map_getD_range]
  have hdata : ((h.simplifyUpdates).simplifyUpdates).data = (h.simplifyUpdates).data := by
    rw [simplify_data_eq]
    have : ∀ v ∈ (h.simplifyUpdates).data, (h.simplifyUpdates).simpVal v = v := by
      intro v hv
      rw [simplify_data_eq] at hv
      rcases List.mem_map.mp hv with ⟨u, hu, rfl⟩
      by_cases huk : u ∈ h.simpKept
      · have hlt := List.indexOf_lt_length.mpr huk
        have hval : h.simpVal u = h.simpKept.indexOf u := by
          rw [simpVal, if_pos huk]
        rw [hval]
        have hmem' : h.simpKept.indexOf u ∈ (h.simplifyUpdates).simpKept := by
          rw [hkept, List.mem_range]
          exact hlt
        rw [MapHistory.simpVal, if_pos hmem', hkept, indexOf_range _ _ hlt]
      · have hu' : h.simpVal u = u := by rw [simpVal, if_neg huk]
        rw [hu']
        have hge : h.updates.length ≤ u := by
          by_contra hc
          exact huk ((mem_simpKept h u).mpr ⟨Nat.lt_of_not_le hc, Or.inr hu⟩)
        have hnotin : u ∉ (h.simplifyUpdates).simpKept := by
          rw [hkept, List.mem_range]
          have := simpKept_length_le h
          omega
        rw [MapHistory.simpVal, if_neg hnotin]
    conv_rhs => rw [← List.map_id (h.simplifyUpdates).data]
    exact List.map_congr_left this
  cases hs : (h.simplifyUpdates).simplifyUpdates with
  | mk a b c d e f g =>
      cases hs' : h.simplifyUpdates with
      | mk a' b' c' d' e' f' g' =>
          rw [hs, hs'] at hups hdata
          have hcmp : ((h.simplifyUpdates).simplifyUpdates).minx = (h.simplifyUpdates).minx ∧
              ((h.simplifyUpdates).simplifyUpdates).miny = (h.simplifyUpdates).miny ∧
              ((h.simplifyUpdates).simplifyUpdates).maxx = (h.simplifyUpdates).maxx ∧
              ((h.simplifyUpdates).simplifyUpdates).maxy = (h.simplifyUpdates).maxy ∧
              ((h.simplifyUpdates).simplifyUpdates).resolution =
                (h.simplifyUpdates).resolution :=
            ⟨rfl, rfl, rfl, rfl, rfl⟩
          rw [hs, hs'] at hcmp
          obtain ⟨e1, e2, e3, e4, e5⟩ := hcmp
          simp only at hups hdata e1 e2 e3 e4 e5
          subst hups hdata e1 e2 e3 e4 e5
          rfl

/-! ### Merged update lists and reindexing -/

theorem mem_insertSortedUpd (u x : Update) (l : List Update) :
    x ∈ insertSortedUpd u l ↔ x = u ∨ x ∈ l := by
  induction l with
  | nil => simp [insertSortedUpd]
  | cons v tl ih =>
      rw [insertSortedUpd]
      split
      · simp only [List.mem_cons]
      · rw [List.mem_cons, ih, List.mem_cons]
        tauto

theorem mem_sortUpdates (x : Update) (l : List Update) : x ∈ sortUpdates l ↔ x ∈ l := by
  induction l with
  | nil => simp [sortUpdates]
  | cons v tl ih =>
      rw [sortUpdates, List.foldr_cons, mem_insertSortedUpd]
      rw [sortUpdates] at ih
      rw [ih, List.mem_cons]

theorem nodup_insertSortedUpd (u : Update) (l : List Update) (hl : l.Nodup) (hu : u ∉ l) :
    (insertSortedUpd u l).Nodup := by
  induction l with
  | nil => simp [insertSortedUpd]
  | cons v tl ih =>
      rw [insertSortedUpd]
      obtain ⟨hv, htl⟩ := List.nodup_cons.mp hl
      split
      · exact List.nodup_cons.mpr ⟨hu, hl⟩
      · refine List.nodup_cons.mpr ⟨?_, ih htl (fun hc => hu (List.mem_cons_of_mem v hc))⟩
        intro hvm
        rcases (mem_insertSortedUpd u v tl).mp hvm with hvu | hvm'
        · exact hu (hvu ▸ List.mem_cons_self v tl)
        · exact hv hvm'

theorem nodup_sortUpdates (l : List Update) (hl : l.Nodup) : (sortUpdates l).Nodup := by
  induction l with
  | nil => simp [sortUpdates]
  | cons v tl ih =>
      rw [sortUpdates, List.foldr_cons]
      obtain ⟨hv, htl⟩ := List.nodup_cons.mp hl
      refine nodup_insertSortedUpd v _ (ih htl) ?_
      intro hc
      exact hv ((mem_sortUpdates v tl).mp hc)

theorem mem_mergeUpdates (x : Update) (a b : List Update) :
    x ∈ mergeUpdates a b ↔ x ∈ a ∨ x ∈ b := by
  rw [mergeUpdates, mem_sortUpdates, List.mem_dedup, List.mem_append]

theorem nodup_mergeUpdates (a b : List Update) : (mergeUpdates a b).Nodup :=
  nodup_sortUpdates _ (List.nodup_dedup _)

theorem mem_of_getLast?_eq {α : Type} : ∀ (l : List α) (a : α), l.getLast? = some a → a ∈ l
  | [], a, h => by simp at h
  | [x], a, h => by
      rw [List.getLast?_singleton] at h
      have hxa : x = a := Option.some.inj h
      subst hxa
      exact List.mem_singleton_self x
  | x :: y :: tl, a, h => by
      rw [List.getLast?_cons_cons] at h
      exact List.mem_cons_of_mem x (mem_of_getLast?_eq (y :: tl) a h)

theorem eq_singleton_of_all_eq {α : Type} (l : List α) (a : α) (h1 : ∀ x ∈ l, x = a)
    (h2 : l.Nodup) (h3 : a ∈ l) : l = [a] := by
  match l, h3 with
  | x :: xs, _ =>
      have hx := h1 x (List.mem_cons_self x xs)
      subst hx
      have hxs : xs = [] := by
        cases xs with
        | nil => rfl
        | cons b bs =>
            have hb := h1 b (List.mem_cons_of_mem _ (List.mem_cons_self b bs))
            subst hb
            simp at h2
      rw [hxs]

theorem dictIdx_self (ups : List Update) (hnd : ups.Nodup) (v : Nat) (hv : v < ups.length) :
    dictIdx ups ups[v] = some v := by
  rw [dictIdx]
  have hfil : (List.range ups.length).filter (fun i => ups[i]? = some ups[v]) = [v] := by
    apply eq_singleton_of_all_eq
    · intro i hi
      rw [List.mem_filter, List.mem_range] at hi
      obtain ⟨hilt, hieq⟩ := hi
      rw [decide_eq_true_eq, List.getElem?_eq_getElem hilt] at hieq
      exact (List.Nodup.getElem_inj_iff hnd).mp (Option.some.inj hieq)
    · exact List.Nodup.filter _ (List.nodup_range _)
    · rw [List.mem_filter, List.mem_range]
      exact ⟨hv, by rw [decide_eq_true_eq, List.getElem?_eq_getElem hv]⟩
  rw [hfil]
  rfl

theorem dictIdx_sound (ups : List Update) (u : Update) (j : Nat)
    (hj : dictIdx ups u = some j) : ups[j]? = some u := by
  rw [dictIdx] at hj
  have hmem := mem_of_getLast?_eq _ _ hj
  rw [List.mem_filter] at hmem
  exact of_decide_eq_true hmem.2

/-- The reindexing of `composite` moves a valid cell value to the position
of the same update in the merged list. -/
theorem remapVal_reindex (ups newUps : List Update) (hnd : ups.Nodup)
    (hsub : ∀ u ∈ ups, u ∈ newUps) (v : Nat) (hv : v < ups.length) :
    newUps[remapVal (reindexMap ups newUps) v]? = some ups[v] := by
  have humem : ups[v] ∈ newUps := hsub _ (List.getElem_mem hv)
  obtain ⟨j0, hj0lt, hj0e⟩ := List.getElem_of_mem humem
  have hj0 : newUps[j0]? = some ups[v] := by
    rw [List.getElem?_eq_getElem hj0lt, hj0e]
  have hpair : (v, j0) ∈ reindexMap ups newUps := by
    rw [reindexMap, List.mem_filterMap]
    refine ⟨(j0, ups[v]), List.mem_enum_iff_getElem?.mpr hj0, ?_⟩
    rw [dictIdx_self ups hnd v hv]
  rcases hfind : (reindexMap ups newUps).find? (fun p => p.1 == v) with _ | p
  · exfalso
    have := List.find?_eq_none.mp hfind _ hpair
    simp at this
  · have hp_pred : p.1 = v := by
      have := List.find?_some hfind
      simpa using this
    have hp_mem := List.mem_of_find?_eq_some hfind
    rw [reindexMap, List.mem_filterMap] at hp_mem
    obtain ⟨q, hq_mem, hq_eq⟩ := hp_mem
    rcases hd : dictIdx ups q.2 with _ | j
    · rw [hd] at hq_eq; simp at hq_eq
    · rw [hd] at hq_eq
      have hq_eq' : (j, q.1) = p := Option.some.inj hq_eq
      have hju : ups[j]? = some q.2 := dictIdx_sound ups q.2 j hd
      have hjv : j = v := by
        have : p.1 = j := by rw [← hq_eq']
        rw [hp_pred] at this
        omega
      have hq2 : q.2 = ups[v] := by
        rw [hjv, List.getElem?_eq_getElem hv] at hju
        exact (Option.some.inj hju).symm
      have hrw : remapVal (reindexMap ups newUps) v = p.2 := by
        rw [remapVal, hfind]
      rw [hrw]
      have hp2 : p.2 = q.1 := by rw [← hq_eq']
      rw [hp2, ← hq2]
      exact List.mem_enum_iff_getElem?.mp hq_mem

/-! ### `composite` lemmas -/

theorem cellIdx_lt (hst : MapHistory) {x y : Int} (hin : hst.inBounds x y) :
    hst.cellIdx x y < hst.height * hst.width := by
  obtain ⟨h1, h2, h3, h4⟩ := hin
  have hrx : (x - hst.minx).toNat < hst.width := by rw [width]; omega
  have hry : (y - hst.miny).toNat < hst.height := by rw [height]; omega
  rw [cellIdx]
  calc (y - hst.miny).toNat * hst.width + (x - hst.minx).toNat
      < (y - hst.miny).toNat * hst.width + hst.width := by omega
  _ = ((y - hst.miny).toNat + 1) * hst.width := by ring
  _ ≤ hst.height * hst.width := Nat.mul_le_mul_right _ (by omega)

theorem composite_eq (self other : MapHistory) (mask : Option RGeom)
    (hres : self.resolution = other.resolution) :
    composite self other mask = some (MapHistory.simplifyUpdates
      { compositeS1 self other with
        updates := compositeNewUps self other,
        data := compositeFinalData self other mask },
      compositeO1 self other) := by
  rw [composite, if_neg (fun hc => hc hres)]

theorem compositeS1_updates (self other : MapHistory) :
    (compositeS1 self other).updates = self.updates := rfl

theorem compositeO1_updates (self other : MapHistory) :
    (compositeO1 self other).updates = other.updates := rfl

theorem compositeO1_bounds (self other : MapHistory) :
    (compositeO1 self other).minx = min self.minx other.minx ∧
    (compositeO1 self other).miny = min self.miny other.miny ∧
    (compositeO1 self other).maxx = max self.maxx other.maxx ∧
    (compositeO1 self other).maxy = max self.maxy other.maxy := by
  refine ⟨?_, ?_, ?_, ?_⟩ <;> simp only [compositeO1, compositeS1, fit_bounds] <;> omega

theorem compositeO1_cellVal (self other : MapHistory) {x y : Int}
    (hin : other.inBounds x y) :
    (compositeO1 self other).cellVal x y = other.cellVal x y :=
  cellVal_fit_bounds other _ _ _ _ hin

/-- Core of the mask frame property: with a mask geometry, a `self` cell
outside the mask still references the same update after `composite`. -/
theorem composite_refUpd_preserved (self other : MapHistory) (g : RGeom) (x y : Int)
    (hnd : self.updates.Nodup) (hne : self.updates ≠ [])
    (hwf : ∀ v ∈ self.data, v < self.updates.length)
    (hin : self.inBounds x y) (hmask : (x, y) ∉ g) :
    (MapHistory.simplifyUpdates
      { compositeS1 self other with
        updates := compositeNewUps self other,
        data := compositeFinalData self other (some g) }).refUpd x y = self.refUpd x y := by
  set s1 := compositeS1 self other with hs1
  set s2 : MapHistory :=
    { s1 with updates := compositeNewUps self other,
              data := compositeFinalData self other (some g) } with hs2
  have hin1 : s1.inBounds x y := fit_bounds_inBounds self _ _ _ _ hin
  have hin2 : s2.inBounds x y := hin1
  -- the original cell value and its bound
  have hv_or : self.cellVal x y ∈ self.data ∨ self.cellVal x y = 0 :=
    getD_mem_or self.data _ 0
  have hL : 0 < self.updates.length := List.length_pos.mpr hne
  have hvlt : self.cellVal x y < self.updates.length := by
    rcases hv_or with hm | h0
    · exact hwf _ hm
    · omega
  have hval1 : s1.cellVal x y = self.cellVal x y := cellVal_fit_bounds self _ _ _ _ hin
  -- the cell after the masked write: the reindexed self value
  have hidxlt : s1.cellIdx x y < s1.data.length := by
    rw [hs1, compositeS1, fit_bounds_data_length]
    exact cellIdx_lt _ hin1
  have hs2data : s2.data = gridOf s2.width s2.height (fun rx ry =>
      if (s2.minx + rx, s2.miny + ry) ∈ g then
        (compositeMaxData self other).getD (ry * s2.width + rx) 0
      else
        (compositeSData self other).getD (ry * s2.width + rx) 0) := rfl
  have hcell2 : s2.cellVal x y = (compositeSData self other).getD (s1.cellIdx x y) 0 := by
    rw [cellVal_of_gridOf s2 _ hs2data hin2]
    obtain ⟨h1, h2, h3, h4⟩ := hin2
    have ex : s2.minx + (((x - s2.minx).toNat : Nat) : Int) = x := by omega
    have ey : s2.miny + (((y - s2.miny).toNat : Nat) : Int) = y := by omega
    rw [ex, ey, if_neg hmask]
    rfl
  have hsdata : (compositeSData self other).getD (s1.cellIdx x y) 0 =
      remapVal (reindexMap s1.updates (compositeNewUps self other)) (s1.cellVal x y) := by
    rw [compositeSData, applyRemap, ← hs1]
    rw [List.getD_eq_getElem _ _ (by simpa using hidxlt), List.getElem_map]
    congr 1
    rw [cellVal, List.getD_eq_getElem _ _ hidxlt]
  -- the reindexed value points at the same update in the merged list
  have hsub : ∀ u ∈ s1.updates, u ∈ compositeNewUps self other := by
    intro u hu
    exact (mem_mergeUpdates u _ _).mpr (Or.inl hu)
  have hvlt1 : s1.cellVal x y < s1.updates.length := by
    rw [hval1, compositeS1_updates]
    exact hvlt
  have hnd1 : s1.updates.Nodup := by rw [hs1, compositeS1_updates]; exact hnd
  have hremap := remapVal_reindex s1.updates (compositeNewUps self other) hnd1 hsub
    (s1.cellVal x y) hvlt1
  -- the simplify step preserves the referenced update
  have hs2cell_mem : s2.cellVal x y ∈ s2.data := by
    have hlen2 : s2.cellIdx x y < s2.data.length := by
      rw [hs2data, gridOf_length]
      exact cellIdx_lt s2 hin2
    rw [cellVal, List.getD_eq_getElem _ _ hlen2]
    exact List.getElem_mem hlen2
  rw [simplify_refUpd s2 x y (Or.inr (Or.inl hs2cell_mem))]
  -- compute the reference through the merged list
  have hupseq : s2.updates = compositeNewUps self other := rfl
  rw [refUpd, hcell2, hsdata, hupseq, List.getD_eq_getElem?_getD, hremap, Option.getD_some]
  rw [refUpd, List.getD_eq_getElem self.updates (0, 0) hvlt]
  have hl : s1.updates = self.updates := by rw [hs1, compositeS1_updates]
  have hq : s1.updates[s1.cellVal x y]? = self.updates[self.cellVal x y]? := by
    rw [hl, hval1]
  rw [List.getElem?_eq_getElem hvlt1, List.getElem?_eq_getElem hvlt] at hq
  exact Option.some.inj hq

/-! ### Serialization lemmas -/

theorem readU16_encodeU16 (n : Nat) (hn : n < 65536) (r : List Nat) :
    readU16 (encodeU16 n ++ r) = some (n, r) := by
  simp only [encodeU16, List.cons_append, List.nil_append, readU16]
  congr 2
  omega

theorem readU32_encodeU32 (n : Nat) (hn : n < 4294967296) (r : List Nat) :
    readU32 (encodeU32 n ++ r) = some (n, r) := by
  have h1 : n % 65536 < 65536 := Nat.mod_lt _ (by omega)
  have h2 : n / 65536 % 65536 < 65536 := Nat.mod_lt _ (by omega)
  rw [encodeU32, List.append_assoc, readU32, readU16_encodeU16 _ h1]
  simp only [Option.bind_eq_bind, Option.some_bind]
  rw [readU16_encodeU16 _ h2]
  simp only [Option.some_bind]
  have he : n % 65536 + 65536 * (n / 65536 % 65536) = n := by omega
  rw [he]
  rfl

theorem readI16_encodeI16 (z : Int) (hz : -32768 ≤ z ∧ z < 32768) (r : List Nat) :
    readI16 (encodeI16 z ++ r) = some (z, r) := by
  have hmod : 0 ≤ z % 65536 ∧ z % 65536 < 65536 := by omega
  rw [encodeI16, readI16, readU16_encodeU16 _ (by omega) r]
  simp only [Option.map_some']
  congr 2
  split <;> omega

theorem readUpdates_encodeUpdates (ups : List Update)
    (hups : ∀ u ∈ ups, u.1 < 4294967296 ∧ u.2 < 4294967296) (r : List Nat) :
    readUpdates ups.length (encodeUpdates ups ++ r) = some (ups, r) := by
  induction ups with
  | nil => simp [encodeUpdates, readUpdates]
  | cons u tl ih =>
      have hu := hups u (List.mem_cons_self u tl)
      rw [List.length_cons, encodeUpdates, List.flatMap_cons, List.append_assoc,
        List.append_assoc, readUpdates, readU32_encodeU32 _ hu.1]
      simp only [Option.bind_eq_bind, Option.some_bind]
      rw [readU32_encodeU32 _ hu.2]
      simp only [Option.some_bind]
      rw [← encodeUpdates, ih (fun v hv => hups v (List.mem_cons_of_mem u hv))]
      simp only [Option.some_bind]
      rfl

theorem readCells_encodeCells (cells : List Nat) (hcells : ∀ v ∈ cells, v < 65536)
    (r : List Nat) : readCells cells.length (encodeCells cells ++ r) = some (cells, r) := by
  induction cells with
  | nil => simp [encodeCells, readCells]
  | cons c tl ih =>
      have hc := hcells c (List.mem_cons_self c tl)
      rw [List.length_cons, encodeCells, List.flatMap_cons, List.append_assoc, readCells,
        readU16_encodeU16 _ hc]
      simp only [Option.bind_eq_bind, Option.some_bind]
      rw [← encodeCells, ih (fun v hv => hcells v (List.mem_cons_of_mem c hv))]
      simp only [Option.some_bind]
      rfl

theorem readCellWidth_two (r : List Nat) : readCellWidth (2 :: r) = some r := rfl

/-- Round trip at the byte level: deserializing the serialization of a
well-formed store recovers it exactly. -/
theorem deserialize_serialize (s : MapHistory)
    (hb1 : -32768 ≤ s.minx ∧ s.minx < 32768) (hb2 : -32768 ≤ s.miny ∧ s.miny < 32768)
    (hb3 : -32768 ≤ s.maxx ∧ s.maxx < 32768) (hb4 : -32768 ≤ s.maxy ∧ s.maxy < 32768)
    (hres : s.resolution < 65536) (hcnt : s.updates.length < 65536)
    (hups : ∀ u ∈ s.updates, u.1 < 4294967296 ∧ u.2 < 4294967296)
    (hdata : ∀ v ∈ s.data, v < 65536)
    (hlen : s.data.length = s.height * s.width) :
    deserialize (serialize s) = some s := by
  rw [serialize]
  simp only [List.append_assoc, List.singleton_append, List.cons_append, List.nil_append]
  rw [deserialize, readI16_encodeI16 _ hb1]
  simp only [Option.bind_eq_bind, Option.some_bind]
  rw [readI16_encodeI16 _ hb2]
  simp only [Option.some_bind]
  rw [readI16_encodeI16 _ hb3]
  simp only [Option.some_bind]
  rw [readI16_encodeI16 _ hb4]
  simp only [Option.some_bind]
  rw [readU16_encodeU16 _ hres]
  simp only [Option.some_bind]
  rw [readCellWidth_two]
  simp only [Option.some_bind]
  rw [readU16_encodeU16 _ hcnt]
  simp only [Option.some_bind]
  rw [readUpdates_encodeUpdates s.updates hups]
  simp only [Option.some_bind]
  have hcount : (s.maxy - s.miny).toNat * (s.maxx - s.minx).toNat = s.data.length := by
    rw [hlen, height, width]
  rw [hcount, ← List.append_nil (encodeCells s.data), readCells_encodeCells s.data hdata []]
  simp only [Option.some_bind]
  rfl

theorem serialize_wf_simplify (h : MapHistory)
    (hups : ∀ u ∈ h.updates, u.1 < 4294967296 ∧ u.2 < 4294967296)
    (hdata : ∀ v ∈ h.data, v < 65536) (hcnt : h.updates.length < 65536)
    (hlen : h.data.length = h.height * h.width) :
    (∀ u ∈ h.simplifyUpdates.updates, u.1 < 4294967296 ∧ u.2 < 4294967296) ∧
    (∀ v ∈ h.simplifyUpdates.data, v < 65536) ∧
    h.simplifyUpdates.updates.length < 65536 ∧
    h.simplifyUpdates.data.length = h.simplifyUpdates.height * h.simplifyUpdates.width := by
  refine ⟨?_, ?_, ?_, ?_⟩
  · intro u hu
    exact hups u (simplify_updates_mem h u hu)
  · intro v hv
    rw [simplify_data_eq] at hv
    rcases List.mem_map.mp hv with ⟨u, hu, rfl⟩
    rw [simpVal]
    split
    · rename_i hmem
      have := List.indexOf_lt_length.mpr hmem
      have := simpKept_length_le h
      omega
    · exact hdata u hu
  · have h1 := simplify_updates_length h
    have h2 := simpKept_length_le h
    omega
  · rw [simplify_data_eq, List.length_map]
    exact hlen

/-- The second `add_geometry` call with a different update appends it. -/
theorem add_geometry_append (h : MapHistory) (g : RGeom) (u u' : Update)
    (hlast : h.updates.getLast? = some u') (hne : u' ≠ u) :
    h.add_geometry g u =
      MapHistory.setGeometry { h with updates := h.updates ++ [u] } g
        ((h.updates ++ [u]).length - 1) := by
  rw [add_geometry]
  split
  · rename_i hc
    rw [hlast] at hc
    exact absurd (Option.some.inj hc) hne
  · rfl

end MapHistory

/-! ## Lemmas: spatial index -/

theorem keyBoxes_append (live : List (Nat × Box)) (q : Nat × Box) (v : Nat) :
    keyBoxes (live ++ [q]) v = keyBoxes live v ++ (if q.1 = v then [q.2] else []) := by
  rw [keyBoxes, List.filter_append, List.map_append, keyBoxes]
  congr 1
  by_cases h : q.1 = v <;> simp [List.filter_cons, h]

theorem keyBoxes_filter_ne (live : List (Nat × Box)) (v w : Nat) (hvw : w ≠ v) :
    keyBoxes (live.filter (fun p => p.1 != v)) w = keyBoxes live w := by
  rw [keyBoxes, List.filter_filter, keyBoxes]
  congr 1
  apply List.filter_congr
  intro p _
  by_cases h : p.1 = w
  · simp [h, bne, hvw]
  · simp [h]

theorem keyBoxes_filter_self (live : List (Nat × Box)) (v : Nat) :
    keyBoxes (live.filter (fun p => p.1 != v)) v = [] := by
  rw [keyBoxes, List.filter_filter]
  have : live.filter (fun p => p.1 == v && p.1 != v) = [] := by
    apply List.filter_eq_nil_iff.mpr
    intro p _
    by_cases h : p.1 = v <;> simp [h, bne]
  rw [this, List.map_nil]

theorem fold_erase_cons (v : Nat) (bs : List Box) (p : Nat × Box) (hp : p.1 ≠ v) :
    ∀ L : List (Nat × Box),
      bs.foldl (fun l b => l.erase (v, b)) (p :: L) =
        p :: bs.foldl (fun l b => l.erase (v, b)) L := by
  induction bs with
  | nil => intro L; rfl
  | cons b bt ih =>
      intro L
      rw [List.foldl_cons, List.foldl_cons]
      have hne : p ≠ (v, b) := by
        intro hc
        rw [hc] at hp
        exact hp rfl
      rw [List.erase_cons_tail (by simpa using hne)]
      exact ih _

theorem erase_fold_filter (live : List (Nat × Box)) (v : Nat) :
    (keyBoxes live v).foldl (fun l b => l.erase (v, b)) live =
      live.filter (fun p => p.1 != v) := by
  induction live with
  | nil => rfl
  | cons p tl ih =>
      by_cases hp : p.1 = v
      · have hkb : keyBoxes (p :: tl) v = p.2 :: keyBoxes tl v := by
          simp [keyBoxes, List.filter_cons, hp]
        have hpe : p = (v, p.2) := by
          rw [← hp]
        have hhead : (p :: tl).erase (v, p.2) = tl := by
          conv_lhs => rw [hpe]
          exact List.erase_cons_head _ _
        have hfil : (p :: tl).filter (fun q => q.1 != v) = tl.filter (fun q => q.1 != v) := by
          simp [List.filter_cons, hp]
        rw [hkb, List.foldl_cons, hhead, ih, hfil]
      · have hkb : keyBoxes (p :: tl) v = keyBoxes tl v := by
          simp [keyBoxes, List.filter_cons, hp]
        have hfil : (p :: tl).filter (fun q => q.1 != v) =
            p :: tl.filter (fun q => q.1 != v) := by
          simp [List.filter_cons, hp]
        rw [hkb, fold_erase_cons v _ p hp, ih, hfil]

theorem RInv_empty : RInv RTreeIndex.empty [] := by
  constructor
  · rfl
  · intro v
    simp [RTreeIndex.empty, keyBoxes]

theorem RInv_insertOne (t : RTreeIndex) (live : List (Nat × Box)) (v : Nat) (b : Box)
    (h : RInv t live) : RInv (t.insertOne v b) (live ++ [(v, b)]) := by
  obtain ⟨hidx, hbox⟩ := h
  constructor
  · rw [RTreeIndex.insertOne, hidx]
  · intro w
    show (if w = v then some ((t.boxes v).getD [] ++ [b]) else t.boxes w) = _
    by_cases hw : w = v
    · subst hw
      rw [if_pos rfl, hbox w, keyBoxes_append, if_pos rfl]
      rcases hkb : keyBoxes live w with _ | ⟨b0, bt⟩ <;> simp
    · rw [if_neg hw, hbox w, keyBoxes_append]
      rw [if_neg (show ¬((v, b).1 = w) from fun hc => hw hc.symm), List.append_nil]

theorem RInv_insert (t : RTreeIndex) (live : List (Nat × Box)) (v : Nat) (g : IGeom)
    (h : RInv t live) : RInv (t.insert v g) (live ++ g.map (fun b => (v, b))) := by
  induction g generalizing t live with
  | nil => rw [List.map_nil, List.append_nil]; exact h
  | cons b bt ih =>
      rw [RTreeIndex.insert, List.foldl_cons, List.map_cons]
      have h1 := RInv_insertOne t live v b h
      have h2 := ih (t.insertOne v b) (live ++ [(v, b)]) h1
      rw [RTreeIndex.insert] at h2
      rw [show live ++ (v, b) :: bt.map (fun b => (v, b)) =
        (live ++ [(v, b)]) ++ bt.map (fun b => (v, b)) by simp]
      exact h2

theorem RInv_delete (t : RTreeIndex) (live : List (Nat × Box)) (v : Nat)
    (h : RInv t live) : RInv (t.delete v) (live.filter (fun p => p.1 != v)) := by
  obtain ⟨hidx, hbox⟩ := h
  rw [RTreeIndex.delete]
  rcases hkb : keyBoxes live v with _ | ⟨b0, bt⟩
  · have hnone : t.boxes v = none := by rw [hbox v, hkb, if_pos rfl]
    rw [hnone]
    have hfe : live.filter (fun p => p.1 != v) = live := by
      apply List.filter_eq_self.mpr
      intro p hp
      have : live.filter (fun p => p.1 == v) = [] := by
        have := congrArg List.length (by rw [← keyBoxes, hkb] :
          (live.filter (fun p => p.1 == v)).map (fun p => p.2) = [])
        rw [List.length_map] at this
        exact List.length_eq_zero.mp this
      have hnp := List.filter_eq_nil_iff.mp this p hp
      by_cases hc : p.1 = v
      · exact absurd (by simp [hc]) hnp
      · simp [hc]
    rw [hfe]
    exact ⟨hidx, hbox⟩
  · have hsome : t.boxes v = some (b0 :: bt) := by
      rw [hbox v, hkb, if_neg (by simp)]
    rw [hsome]
    constructor
    · show (b0 :: bt).foldl (fun l b => l.erase (v, b)) t.idx = _
      rw [hidx, ← hkb]
      exact erase_fold_filter live v
    · intro w
      show (if w = v then none else t.boxes w) = _
      by_cases hw : w = v
      · subst hw
        rw [if_pos rfl, keyBoxes_filter_self, if_pos rfl]
      · rw [if_neg hw, hbox w, keyBoxes_filter_ne live v w hw]

theorem RInv_run (ops : List IndexOp) : ∀ (t : RTreeIndex) (live : List (Nat × Box)),
    RInv t live →
    RInv (ops.foldl (fun t op => match op with
      | .ins v g => t.insert v g
      | .del v => t.delete v) t)
      (ops.foldl liveStep live) := by
  induction ops with
  | nil => intro t live h; exact h
  | cons op rest ih =>
      intro t live h
      rw [List.foldl_cons, List.foldl_cons]
      cases op with
      | ins v g => exact ih _ _ (RInv_insert t live v g h)
      | del v => exact ih _ _ (RInv_delete t live v h)

theorem RInv_runRTree (ops : List IndexOp) : RInv (runRTree ops) (liveEntries ops) :=
  RInv_run ops RTreeIndex.empty [] RInv_empty

theorem mem_foldl_union (q : List Box) (f : Box → Finset Nat) (i : Nat) :
    ∀ acc : Finset Nat,
      (i ∈ q.foldl (fun a b => a ∪ f b) acc ↔ i ∈ acc ∨ ∃ b ∈ q, i ∈ f b) := by
  induction q with
  | nil => intro acc; simp
  | cons b bt ih =>
      intro acc
      rw [List.foldl_cons, ih]
      simp only [Finset.mem_union, List.mem_cons]
      constructor
      · rintro ((h | h) | ⟨c, hc, hic⟩)
        · exact Or.inl h
        · exact Or.inr ⟨b, Or.inl rfl, h⟩
        · exact Or.inr ⟨c, Or.inr hc, hic⟩
      · rintro (h | ⟨c, (rfl | hc), hic⟩)
        · exact Or.inl (Or.inl h)
        · exact Or.inl (Or.inr hic)
        · exact Or.inr ⟨c, hc, hic⟩

theorem mem_queryBox (t : RTreeIndex) (b : Box) (i : Nat) :
    i ∈ t.queryBox b ↔ ∃ p ∈ t.idx, p.2.meets b ∧ p.1 = i := by
  rw [RTreeIndex.queryBox]
  simp only [List.mem_toFinset, List.mem_map, List.mem_filter]
  constructor
  · rintro ⟨p, ⟨hp, hm⟩, rfl⟩
    exact ⟨p, hp, by simpa using hm, rfl⟩
  · rintro ⟨p, hp, hm, rfl⟩
    exact ⟨p, ⟨hp, by simpa using hm⟩, rfl⟩

/-! ## Lemmas: compositor walks -/

theorem dictLookup_found {α : Type} (xs ys : List (Nat × α)) (k : Nat) (v : α)
    (hxs : ∀ p ∈ xs, p.1 ≠ k) (hys : ∀ p ∈ ys, p.1 ≠ k) :
    dictLookup (xs ++ (k, v) :: ys) k = some v := by
  rw [dictLookup, List.filter_append, List.filter_cons]
  have hxs' : xs.filter (fun p => p.1 == k) = [] :=
    List.filter_eq_nil_iff.mpr (fun p hp => by simp [hxs p hp])
  have hys' : ys.filter (fun p => p.1 == k) = [] :=
    List.filter_eq_nil_iff.mpr (fun p hp => by simp [hys p hp])
  rw [hxs', hys', if_pos (by simp)]
  rfl

theorem dictLookup_none {α : Type} (l : List (Nat × α)) (k : Nat)
    (hl : ∀ p ∈ l, p.1 ≠ k) : dictLookup l k = none := by
  rw [dictLookup, List.filter_eq_nil_iff.mpr (fun p hp => by simp [hl p hp])]
  rfl

theorem dictLookup_skip_front {α : Type} (xs ys : List (Nat × α)) (k : Nat)
    (hxs : ∀ p ∈ xs, p.1 ≠ k) : dictLookup (xs ++ ys) k = dictLookup ys k := by
  rw [dictLookup, dictLookup, List.filter_append,
    List.filter_eq_nil_iff.mpr (fun p hp => by simp [hxs p hp]), List.nil_append]

theorem dictLookup_cons_skip {α : Type} (p : Nat × α) (ys : List (Nat × α)) (k : Nat)
    (hp : p.1 ≠ k) : dictLookup (p :: ys) k = dictLookup ys k := by
  rw [dictLookup, dictLookup, List.filter_cons, if_neg (by simp [hp])]

/-- The crop walk over a run of hole-less (mounted-on-top) sublevels
assigns each the current cropper and keeps its state. -/
theorem chooseCroppers_noHoles (xs : List SubGeoms) (hxs : ∀ s ∈ xs, s.holes = none)
    (rest : List SubGeoms) (crop : Option CGeom) (count : Nat) :
    chooseCroppers (xs ++ rest) crop count =
      xs.map (fun s => (s.pk, if count > 1 then crop else none)) ++
        chooseCroppers rest crop count := by
  induction xs with
  | nil => rfl
  | cons s tl ih =>
      have hs : s.holes = none := hxs s (List.mem_cons_self s tl)
      rw [List.cons_append, chooseCroppers, hs]
      simp only [Option.isSome_none, Bool.false_eq_true, if_false]
      rw [List.map_cons, List.cons_append,
        ih (fun t ht => hxs t (List.mem_cons_of_mem s ht))]

/-- Every entry the crop walk emits belongs to one of the walked
sublevels. -/
theorem chooseCroppers_keys (subs : List SubGeoms) :
    ∀ (crop : Option CGeom) (count : Nat) (p : Nat × Option CGeom),
      p ∈ chooseCroppers subs crop count → p.1 ∈ subs.map SubGeoms.pk := by
  induction subs with
  | nil => intro crop count p hp; cases hp
  | cons s tl ih =>
      intro crop count p hp
      rcases hh : s.holes with _ | holesGeom
      · simp only [chooseCroppers, hh, Option.isSome_none, Bool.false_eq_true, if_false] at hp
        rcases List.mem_cons.mp hp with rfl | hp'
        · exact List.mem_cons_self _ _
        · exact List.mem_cons_of_mem _ (ih _ _ p hp')
      · simp only [chooseCroppers, hh, Option.isSome_some, if_true] at hp
        by_cases hc : (match crop with | none => holesGeom | some c => c ∩ holesGeom) = ∅
        · rw [if_pos hc] at hp
          rcases List.mem_singleton.mp hp with rfl
          exact List.mem_cons_self _ _
        · rw [if_neg hc] at hp
          rcases List.mem_cons.mp hp with rfl | hp'
          · exact List.mem_cons_self _ _
          · exact List.mem_cons_of_mem _ (ih _ _ p hp')

/-- Unfolding one step of the crop walk at a hole-contributing sublevel
whose intersection with the running crop stays non-empty. -/
theorem chooseCroppers_cons_hole (s : SubGeoms) (rest : List SubGeoms) (H : CGeom)
    (hs : s.holes = some H) (crop : Option CGeom) (count : Nat) (crop' : CGeom)
    (hcrop : crop' = (match crop with | none => H | some c => c ∩ H))
    (hne : crop' ≠ ∅) :
    chooseCroppers (s :: rest) crop count =
      (s.pk, if count + 1 > 1 then crop else none) ::
        chooseCroppers rest (some crop') (count + 1) := by
  simp only [chooseCroppers, hs, Option.isSome_some, if_true]
  rw [← hcrop, if_neg hne]

/-- A sublevel whose cropped walls are empty and whose cropped altitude
areas are all empty is skipped by the render walk (`continue`), leaving
the rest of the walk unchanged. -/
theorem renderWalk_skip (assign : List (Nat × Option CGeom)) (s : SubGeoms)
    (cg : Option CGeom) (hlk : dictLookup assign s.pk = some cg)
    (hw : Cropper.intersection ⟨cg⟩ s.walls = ∅)
    (ha : (s.altitudeareas.map (fun a => Cropper.intersection ⟨cg⟩ a)).filter
      (fun a => a ≠ ∅) = []) :
    ∀ xs ys : List SubGeoms,
      renderWalk assign (xs ++ s :: ys) = renderWalk assign (xs ++ ys) := by
  intro xs
  induction xs with
  | nil =>
      intro ys
      rw [List.nil_append, List.nil_append, renderWalk, hlk]
      simp only []
      rw [if_pos ⟨hw, ha⟩]
  | cons t tl ih =>
      intro ys
      rw [List.cons_append, List.cons_append, renderWalk, renderWalk]
      rcases htk : dictLookup assign t.pk with _ | tcg
      · rfl
      · simp only []
        rw [ih ys]

/-! ## Claims -/

theorem getD_append_length (l : List Update) (u : Update) :
    (l ++ [u]).getD l.length (0, 0) = u := by
  rw [List.getD_eq_getElem?_getD, List.getElem?_append_right (le_refl l.length)]
  simp

/-- C8: `simplify()` is idempotent — a second call leaves the update list
and the cell contents (indeed the whole store) unchanged — and the update
at index 0 is retained even when no cell references it, so the simplified
update list is never empty. -/
theorem claim_C8 (h : MapHistory) (hne : h.updates ≠ []) :
    h.simplifyUpdates.simplifyUpdates = h.simplifyUpdates ∧
    h.simplifyUpdates.updates[0]? = h.updates[0]? ∧
    h.simplifyUpdates.updates ≠ [] :=
  ⟨MapHistory.simplify_idem h hne, MapHistory.simplify_head h hne,
   MapHistory.simplify_ne_nil h hne⟩

/-- Witness for C8: a store whose update 1 is unreferenced and whose
update 0 is also unreferenced; `simplify` drops update 1, keeps update 0,
and is idempotent. -/
theorem claim_C8_witness :
    (⟨0, 0, 2, 1, 1, [(1, 1), (2, 2), (3, 3)], [2, 2]⟩ : MapHistory).updates ≠ [] ∧
    ((⟨0, 0, 2, 1, 1, [(1, 1), (2, 2), (3, 3)], [2, 2]⟩ :
        MapHistory).simplifyUpdates.simplifyUpdates =
      (⟨0, 0, 2, 1, 1, [(1, 1), (2, 2), (3, 3)], [2, 2]⟩ : MapHistory).simplifyUpdates ∧
     (⟨0, 0, 2, 1, 1, [(1, 1), (2, 2), (3, 3)], [2, 2]⟩ :
        MapHistory).simplifyUpdates.updates[0]? =
      (⟨0, 0, 2, 1, 1, [(1, 1), (2, 2), (3, 3)], [2, 2]⟩ : MapHistory).updates[0]? ∧
     (⟨0, 0, 2, 1, 1, [(1, 1), (2, 2), (3, 3)], [2, 2]⟩ :
        MapHistory).simplifyUpdates.updates ≠ []) :=
  ⟨by decide, claim_C8 _ (by decide)⟩

/-- C2: after `add_geometry(g1, u1)` then `add_geometry(g2, u2)` with
`u1.id < u2.id` on geometries both covering the cell `(cx, cy)`,
`last_update` over any rectangle containing that cell returns `u2`, and
over a rectangle covering no cells returns the update at index 0. -/
theorem claim_C2 (h : MapHistory) (g1 g2 : RGeom) (u1 u2 : Update) (cx cy : Int)
    (x0 y0 x1 y1 a0 b0 a1 b1 : Int)
    (hne : h.updates ≠ [])
    (hwf : ∀ v ∈ h.data, v < h.updates.length)
    (hid : u1.1 < u2.1)
    (hc1 : (cx, cy) ∈ g1) (hc2 : (cx, cy) ∈ g2)
    (hx0 : x0 ≤ cx) (hx1 : cx < x1) (hy0 : y0 ≤ cy) (hy1 : cy < y1)
    (hempty : ((h.add_geometry g1 u1).add_geometry g2 u2).slice a0 a1 b0 b1 = []) :
    ((h.add_geometry g1 u1).add_geometry g2 u2).last_update x0 y0 x1 y1 = u2 ∧
    ((h.add_geometry g1 u1).add_geometry g2 u2).last_update a0 b0 a1 b1 =
      h.updates.getD 0 (0, 0) := by
  have hlast1 : (h.add_geometry g1 u1).updates.getLast? = some u1 :=
    MapHistory.add_geometry_getLast h g1 u1
  have hne1 : (h.add_geometry g1 u1).updates ≠ [] := MapHistory.add_geometry_ne_nil h g1 u1
  have hwf1 := MapHistory.add_geometry_wf h g1 u1 hwf
  have hu12 : u1 ≠ u2 := by
    intro hc
    rw [hc] at hid
    omega
  have happ := MapHistory.add_geometry_append (h.add_geometry g1 u1) g2 u2 u1 hlast1 hu12
  set h1 := h.add_geometry g1 u1 with hh1
  set h1e : MapHistory := { h1 with updates := h1.updates ++ [u2] } with hh1e
  set M := h1.updates.length with hM
  have hlen : (h1.updates ++ [u2]).length - 1 = M := by simp
  rw [hlen] at happ
  obtain ⟨hinb, hval⟩ := MapHistory.setGeometry_covered h1e g2 M hc2
  have hups2 : (h1e.setGeometry g2 M).updates = h1.updates ++ [u2] :=
    MapHistory.setGeometry_updates h1e g2 _
  have hub : ∀ w ∈ (h1e.setGeometry g2 M).data, w ≤ M := by
    intro w hw
    rcases MapHistory.mem_data_setGeometry h1e g2 _ w hw with rfl | hw' | rfl
    · omega
    · have := hwf1 w hw'
      omega
    · exact Nat.zero_le M
  rw [happ] at hempty ⊢
  have hslice_ub : ∀ w ∈ (h1e.setGeometry g2 M).slice x0 x1 y0 y1, w ≤ M := by
    intro w hw
    rcases MapHistory.slice_elem_cases _ x0 x1 y0 y1 w hw with hmem | rfl
    · exact hub w hmem
    · exact Nat.zero_le M
  constructor
  · rw [MapHistory.last_update]
    have hMmem : M ∈ (h1e.setGeometry g2 M).slice x0 x1 y0 y1 := by
      apply (MapHistory.mem_slice _ x0 x1 y0 y1 M).mpr
      obtain ⟨hb1, hb2, hb3, hb4⟩ := hinb
      exact ⟨cx, cy, ⟨max_le hx0 hb1, lt_min hx1 hb2⟩, ⟨max_le hy0 hb3, lt_min hy1 hb4⟩, hval⟩
    have hnonnil := List.ne_nil_of_mem hMmem
    rw [if_neg (fun hc => hnonnil (List.isEmpty_iff.mp hc))]
    rw [MapHistory.foldr_max_eq _ M hMmem hslice_ub, hups2, hM, getD_append_length]
  · rw [MapHistory.last_update, if_pos (by rw [hempty]; rfl)]
    rw [hups2, List.getD_eq_getElem?_getD, List.getElem?_append]
    rw [if_pos (List.length_pos.mpr hne1)]
    rw [hh1, MapHistory.add_geometry_head h g1 u1 hne, List.getD_eq_getElem?_getD]

/-- Witness for C2: a one-cell store with base update `(0, 0)`, stamped by
`(1, 1)` and then `(2, 2)`; the cell's rectangle reports `(2, 2)` and a
faraway empty rectangle reports the base update. -/
theorem claim_C2_witness :
    ((⟨0, 0, 1, 1, 1, [(0, 0)], [0]⟩ : MapHistory).updates ≠ [] ∧
     (1 : Nat) < 2 ∧
     ((0 : Int), (0 : Int)) ∈ ([((0 : Int), (0 : Int))] : RGeom) ∧
     (((⟨0, 0, 1, 1, 1, [(0, 0)], [0]⟩ : MapHistory).add_geometry [(0, 0)]
        (1, 1)).add_geometry [(0, 0)] (2, 2)).slice 5 5 5 5 = []) ∧
    ((((⟨0, 0, 1, 1, 1, [(0, 0)], [0]⟩ : MapHistory).add_geometry [(0, 0)]
        (1, 1)).add_geometry [(0, 0)] (2, 2)).last_update 0 0 1 1 = (2, 2) ∧
     (((⟨0, 0, 1, 1, 1, [(0, 0)], [0]⟩ : MapHistory).add_geometry [(0, 0)]
        (1, 1)).add_geometry [(0, 0)] (2, 2)).last_update 5 5 5 5 =
       (⟨0, 0, 1, 1, 1, [(0, 0)], [0]⟩ : MapHistory).updates.getD 0 (0, 0)) :=
  ⟨⟨by decide, by decide, by decide, by decide⟩,
   claim_C2 ⟨0, 0, 1, 1, 1, [(0, 0)], [0]⟩ [(0, 0)] [(0, 0)] (1, 1) (2, 2) 0 0 0 0 1 1 5 5 5 5
     (by decide) (by decide) (by decide) (by decide) (by decide)
     (by decide) (by decide) (by decide) (by decide) (by decide)⟩

/-- C3 (amended): with a mask geometry, `composite` changes only the cells
of `self` inside the mask in the sense of the referenced update: every
cell of `self` outside the mask still references the same update after
the call (its stored index may be renumbered by the merge and the final
compaction). -/
theorem claim_C3_amended (self other : MapHistory) (g : RGeom) (x y : Int)
    (hres : self.resolution = other.resolution)
    (hnd : self.updates.Nodup) (hne : self.updates ≠ [])
    (hwf : ∀ v ∈ self.data, v < self.updates.length)
    (hin : self.inBounds x y) (hmask : (x, y) ∉ g) :
    ∃ s' o', MapHistory.composite self other (some g) = some (s', o') ∧
      s'.refUpd x y = self.refUpd x y :=
  ⟨_, _, MapHistory.composite_eq self other (some g) hres,
   MapHistory.composite_refUpd_preserved self other g x y hnd hne hwf hin hmask⟩

/-- Witness for C3: two one-row stores over the same bounds; the cell at
`(0, 0)` lies outside the mask `[(1, 0)]` and still references update
`(5, 5)` after `composite`. -/
theorem claim_C3_amended_witness :
    ((⟨0, 0, 2, 1, 1, [(0, 0), (5, 5)], [1, 0]⟩ : MapHistory).resolution =
      (⟨0, 0, 2, 1, 1, [(0, 0), (3, 3)], [0, 1]⟩ : MapHistory).resolution ∧
     (⟨0, 0, 2, 1, 1, [(0, 0), (5, 5)], [1, 0]⟩ : MapHistory).inBounds 0 0 ∧
     ((0 : Int), (0 : Int)) ∉ ([((1 : Int), (0 : Int))] : RGeom)) ∧
    (∃ s' o', MapHistory.composite ⟨0, 0, 2, 1, 1, [(0, 0), (5, 5)], [1, 0]⟩
        ⟨0, 0, 2, 1, 1, [(0, 0), (3, 3)], [0, 1]⟩ (some [(1, 0)]) = some (s', o') ∧
      s'.refUpd 0 0 = (⟨0, 0, 2, 1, 1, [(0, 0), (5, 5)], [1, 0]⟩ : MapHistory).refUpd 0 0) :=
  ⟨⟨by decide, by decide, by decide⟩,
   claim_C3_amended ⟨0, 0, 2, 1, 1, [(0, 0), (5, 5)], [1, 0]⟩
     ⟨0, 0, 2, 1, 1, [(0, 0), (3, 3)], [0, 1]⟩ [(1, 0)] 0 0
     (by decide) (by decide) (by decide) (by decide) (by decide) (by decide)⟩

/-- Counterexample for C3 as stated: the stored value of a cell outside
the mask is not unchanged — reindexing into the merged update list
renumbers it (from 1 to 2 here), even though it still references the same
update. -/
theorem claim_C3_counterexample :
    (MapHistory.composite ⟨0, 0, 2, 1, 1, [(0, 0), (5, 5)], [1, 0]⟩
        ⟨0, 0, 2, 1, 1, [(0, 0), (3, 3)], [0, 1]⟩ (some [(1, 0)])).map
      (fun p => p.1.cellVal 0 0) = some 2 ∧
    (⟨0, 0, 2, 1, 1, [(0, 0), (5, 5)], [1, 0]⟩ : MapHistory).cellVal 0 0 = 1 ∧
    ((0 : Int), (0 : Int)) ∉ ([((1 : Int), (0 : Int))] : RGeom) := by decide

/-- C10: `composite` mutates `other` only by growing its bounds to the
combined bounding rectangle; its update list and all of its pre-existing
cells are unchanged. -/
theorem claim_C10 (self other : MapHistory) (mask : Option RGeom)
    (hres : self.resolution = other.resolution) :
    ∃ s' o', MapHistory.composite self other mask = some (s', o') ∧
      o'.updates = other.updates ∧
      o'.minx = min self.minx other.minx ∧ o'.miny = min self.miny other.miny ∧
      o'.maxx = max self.maxx other.maxx ∧ o'.maxy = max self.maxy other.maxy ∧
      ∀ x y : Int, other.inBounds x y → o'.cellVal x y = other.cellVal x y := by
  obtain ⟨hb1, hb2, hb3, hb4⟩ := MapHistory.compositeO1_bounds self other
  exact ⟨_, _, MapHistory.composite_eq self other mask hres,
    MapHistory.compositeO1_updates self other, hb1, hb2, hb3, hb4,
    fun x y hin => MapHistory.compositeO1_cellVal self other hin⟩

/-- Witness for C10 at two concrete stores with different bounds. -/
theorem claim_C10_witness :
    ((⟨0, 0, 2, 1, 1, [(0, 0), (5, 5)], [1, 0]⟩ : MapHistory).resolution =
      (⟨1, 0, 3, 1, 1, [(0, 0), (3, 3)], [0, 1]⟩ : MapHistory).resolution) ∧
    (∃ s' o', MapHistory.composite ⟨0, 0, 2, 1, 1, [(0, 0), (5, 5)], [1, 0]⟩
        ⟨1, 0, 3, 1, 1, [(0, 0), (3, 3)], [0, 1]⟩ none = some (s', o') ∧
      o'.updates = (⟨1, 0, 3, 1, 1, [(0, 0), (3, 3)], [0, 1]⟩ : MapHistory).updates ∧
      o'.minx = min 0 1 ∧ o'.miny = min 0 0 ∧ o'.maxx = max 2 3 ∧ o'.maxy = max 1 1 ∧
      ∀ x y : Int, (⟨1, 0, 3, 1, 1, [(0, 0), (3, 3)], [0, 1]⟩ : MapHistory).inBounds x y →
        o'.cellVal x y = (⟨1, 0, 3, 1, 1, [(0, 0), (3, 3)], [0, 1]⟩ : MapHistory).cellVal x y) :=
  ⟨by decide,
   claim_C10 ⟨0, 0, 2, 1, 1, [(0, 0), (5, 5)], [1, 0]⟩
     ⟨1, 0, 3, 1, 1, [(0, 0), (3, 3)], [0, 1]⟩ none (by decide)⟩

/-- C7: persisting a store (`write`, which runs `simplify()` first and
then serializes) and reloading the bytes yields a store identical to the
one that was persisted — the simplified store — in bounds, resolution,
update list and cell array (full structural equality).  The bounds fit
the persisted header's int16 fields, counts and values fit their uint16
and uint32 fields, and the cell array has the grid's size. -/
theorem claim_C7 (h : MapHistory)
    (hb1 : -32768 ≤ h.minx ∧ h.minx < 32768) (hb2 : -32768 ≤ h.miny ∧ h.miny < 32768)
    (hb3 : -32768 ≤ h.maxx ∧ h.maxx < 32768) (hb4 : -32768 ≤ h.maxy ∧ h.maxy < 32768)
    (hres : h.resolution < 65536) (hcnt : h.updates.length < 65536)
    (hups : ∀ u ∈ h.updates, u.1 < 4294967296 ∧ u.2 < 4294967296)
    (hdata : ∀ v ∈ h.data, v < 65536)
    (hlen : h.data.length = h.height * h.width) :
    MapHistory.readStore (MapHistory.write h) = some h.simplifyUpdates := by
  obtain ⟨w1, w2, w3, w4⟩ := MapHistory.serialize_wf_simplify h hups hdata hcnt hlen
  rw [MapHistory.write, MapHistory.readStore]
  exact MapHistory.deserialize_serialize h.simplifyUpdates hb1 hb2 hb3 hb4 hres w3 w1 w2 w4

/-- Witness for C7 at a small concrete store (which `simplify` compacts
before persisting). -/
theorem claim_C7_witness :
    ((-32768 : Int) ≤ (0 : Int) ∧ (0 : Int) < 32768 ∧
     (⟨0, 0, 2, 1, 1, [(1, 1), (2, 2), (3, 3)], [2, 0]⟩ : MapHistory).updates.length < 65536 ∧
     (⟨0, 0, 2, 1, 1, [(1, 1), (2, 2), (3, 3)], [2, 0]⟩ : MapHistory).data.length =
       (⟨0, 0, 2, 1, 1, [(1, 1), (2, 2), (3, 3)], [2, 0]⟩ : MapHistory).height *
         (⟨0, 0, 2, 1, 1, [(1, 1), (2, 2), (3, 3)], [2, 0]⟩ : MapHistory).width) ∧
    MapHistory.readStore
        (MapHistory.write ⟨0, 0, 2, 1, 1, [(1, 1), (2, 2), (3, 3)], [2, 0]⟩) =
      some (⟨0, 0, 2, 1, 1, [(1, 1), (2, 2), (3, 3)], [2, 0]⟩ :
        MapHistory).simplifyUpdates :=
  ⟨⟨by decide, by decide, by decide, by decide⟩,
   claim_C7 ⟨0, 0, 2, 1, 1, [(1, 1), (2, 2), (3, 3)], [2, 0]⟩
     (by decide) (by decide) (by decide) (by decide) (by decide) (by decide)
     (by decide) (by decide) (by decide)⟩

/-- Once more than one primary layer has been seen, the walk assigns the
current running crop to the next sublevel, whatever its holes are. -/
theorem chooseCroppers_head_big (s : SubGeoms) (rest : List SubGeoms)
    (crop : Option CGeom) (count : Nat) (hcount : 1 < count) :
    ∃ tail, chooseCroppers (s :: rest) crop count = (s.pk, crop) :: tail ∧
      ∀ p ∈ tail, p.1 ∈ rest.map SubGeoms.pk := by
  rcases hh : s.holes with _ | H
  · refine ⟨chooseCroppers rest crop count, ?_, fun p hp => chooseCroppers_keys rest _ _ p hp⟩
    simp only [chooseCroppers, hh, Option.isSome_none, Bool.false_eq_true, if_false]
    rw [if_pos hcount]
  · rcases crop with _ | c
    · by_cases hc : H = ∅
      · refine ⟨[], ?_, by simp⟩
        simp only [chooseCroppers, hh, Option.isSome_some, if_true]
        rw [if_pos hc, if_pos (by omega : 1 < count + 1)]
      · refine ⟨chooseCroppers rest (some H) (count + 1), ?_,
          fun p hp => chooseCroppers_keys rest _ _ p hp⟩
        simp only [chooseCroppers, hh, Option.isSome_some, if_true]
        rw [if_neg hc, if_pos (by omega : 1 < count + 1)]
    · by_cases hc : c ∩ H = ∅
      · refine ⟨[], ?_, by simp⟩
        simp only [chooseCroppers, hh, Option.isSome_some, if_true]
        rw [if_pos hc, if_pos (by omega : 1 < count + 1)]
      · refine ⟨chooseCroppers rest (some (c ∩ H)) (count + 1), ?_,
          fun p hp => chooseCroppers_keys rest _ _ p hp⟩
        simp only [chooseCroppers, hh, Option.isSome_some, if_true]
        rw [if_neg hc, if_pos (by omega : 1 < count + 1)]

/-- C1 (amended): in a sublevel stack (listed top to bottom) with exactly
two hole-contributing primary layers — holes `H1` (nearer) and `H2`
(farther), all interleaved sublevels hole-less, all pks distinct — and
`H1 ∩ H2` non-empty, the walk leaves the topmost hole-contributing layer
unrestricted (`None`), assigns the second one `H1` alone, and assigns the
layer below both `H1 ∩ H2`.  (When `H1 ∩ H2` is empty the walk breaks
first and the lower layer is assigned nothing — see the counterexample.) -/
theorem claim_C1_amended (as1 bs cs ds : List SubGeoms) (a b l : SubGeoms) (H1 H2 : CGeom)
    (ha : a.holes = some H1) (hb : b.holes = some H2)
    (has : ∀ s ∈ as1, s.holes = none) (hbs : ∀ s ∈ bs, s.holes = none)
    (hcs : ∀ s ∈ cs, s.holes = none)
    (hH1 : H1 ≠ ∅) (hH2 : H2 ≠ ∅) (hint : H1 ∩ H2 ≠ ∅)
    (hka : ∀ s ∈ as1, s.pk ≠ a.pk) (hka' : ∀ s ∈ bs ++ b :: (cs ++ l :: ds), s.pk ≠ a.pk)
    (hkb : ∀ s ∈ as1 ++ a :: bs, s.pk ≠ b.pk) (hkb' : ∀ s ∈ cs ++ l :: ds, s.pk ≠ b.pk)
    (hkl : ∀ s ∈ as1 ++ a :: (bs ++ b :: cs), s.pk ≠ l.pk) (hkl' : ∀ s ∈ ds, s.pk ≠ l.pk) :
    dictLookup (chooseCroppers (as1 ++ a :: (bs ++ b :: (cs ++ l :: ds))) none 0) a.pk =
      some none ∧
    dictLookup (chooseCroppers (as1 ++ a :: (bs ++ b :: (cs ++ l :: ds))) none 0) b.pk =
      some (some H1) ∧
    dictLookup (chooseCroppers (as1 ++ a :: (bs ++ b :: (cs ++ l :: ds))) none 0) l.pk =
      some (some (H1 ∩ H2)) := by
  obtain ⟨tail, htail, htailkeys⟩ :=
    chooseCroppers_head_big l ds (some (H1 ∩ H2)) 2 (by omega)
  have hasn : chooseCroppers (as1 ++ a :: (bs ++ b :: (cs ++ l :: ds))) none 0 =
      as1.map (fun s => (s.pk, (none : Option CGeom))) ++
      (a.pk, (none : Option CGeom)) ::
        (bs.map (fun s => (s.pk, (none : Option CGeom))) ++
        (b.pk, some H1) ::
          (cs.map (fun s => (s.pk, some (H1 ∩ H2))) ++
          (l.pk, some (H1 ∩ H2)) :: tail)) := by
    rw [chooseCroppers_noHoles as1 has]
    rw [chooseCroppers_cons_hole a _ H1 ha none 0 H1 rfl hH1]
    rw [chooseCroppers_noHoles bs hbs]
    rw [chooseCroppers_cons_hole b _ H2 hb (some H1) 1 (H1 ∩ H2) rfl hint]
    rw [chooseCroppers_noHoles cs hcs]
    rw [htail]
    norm_num
  rw [hasn]
  -- pairwise key distinctness facts
  have hab : a.pk ≠ b.pk := hkb a (List.mem_append_right _ (List.mem_cons_self _ _))
  have hal : a.pk ≠ l.pk := hkl a (List.mem_append_right _ (List.mem_cons_self _ _))
  have hbl : b.pk ≠ l.pk := hkl b (List.mem_append_right _ (List.mem_cons_of_mem _
    (List.mem_append_right _ (List.mem_cons_self _ _))))
  have hA : ∀ (k : Nat), (∀ s ∈ as1, s.pk ≠ k) →
      ∀ p ∈ as1.map (fun s => (s.pk, (none : Option CGeom))), p.1 ≠ k := by
    intro k hk p hp
    rcases List.mem_map.mp hp with ⟨s, hs, rfl⟩
    exact hk s hs
  have hB : ∀ (k : Nat), (∀ s ∈ bs, s.pk ≠ k) →
      ∀ p ∈ bs.map (fun s => (s.pk, (none : Option CGeom))), p.1 ≠ k := by
    intro k hk p hp
    rcases List.mem_map.mp hp with ⟨s, hs, rfl⟩
    exact hk s hs
  have hC : ∀ (k : Nat), (∀ s ∈ cs, s.pk ≠ k) →
      ∀ p ∈ cs.map (fun s => (s.pk, some (H1 ∩ H2))), p.1 ≠ k := by
    intro k hk p hp
    rcases List.mem_map.mp hp with ⟨s, hs, rfl⟩
    exact hk s hs
  have hT : ∀ (k : Nat), (∀ s ∈ ds, s.pk ≠ k) → ∀ p ∈ tail, p.1 ≠ k := by
    intro k hk p hp
    rcases List.mem_map.mp (htailkeys p hp) with ⟨s, hs, hpk⟩
    rw [← hpk]
    exact hk s hs
  have hCLT : ∀ (k : Nat), (∀ s ∈ cs, s.pk ≠ k) → l.pk ≠ k → (∀ s ∈ ds, s.pk ≠ k) →
      ∀ p ∈ cs.map (fun s => (s.pk, some (H1 ∩ H2))) ++
        (l.pk, some (H1 ∩ H2)) :: tail, p.1 ≠ k := by
    intro k hkc hkld hkd p hp
    rcases List.mem_append.mp hp with hpC | hp1
    · exact hC k hkc p hpC
    · rcases List.mem_cons.mp hp1 with rfl | hp2
      · exact hkld
      · exact hT k hkd p hp2
  refine ⟨?_, ?_, ?_⟩
  · -- lookup a.pk: found in front, absent everywhere after
    apply dictLookup_found
    · exact hA a.pk hka
    · intro p hp
      rcases List.mem_append.mp hp with hpB | hp1
      · exact hB a.pk (fun s hs => hka' s (List.mem_append_left _ hs)) p hpB
      · rcases List.mem_cons.mp hp1 with rfl | hp2
        · exact hka' b (List.mem_append_right _ (List.mem_cons_self _ _))
        · refine hCLT a.pk ?_ ?_ ?_ p hp2
          · intro s hs
            exact hka' s (List.mem_append_right _ (List.mem_cons_of_mem _
              (List.mem_append_left _ hs)))
          · exact hka' l (List.mem_append_right _ (List.mem_cons_of_mem _
              (List.mem_append_right _ (List.mem_cons_self _ _))))
          · intro s hs
            exact hka' s (List.mem_append_right _ (List.mem_cons_of_mem _
              (List.mem_append_right _ (List.mem_cons_of_mem _ hs))))
  · -- lookup b.pk: skip the front, found in the middle
    rw [dictLookup_skip_front _ _ b.pk (hA b.pk
      (fun s hs => hkb s (List.mem_append_left _ hs)))]
    rw [dictLookup_cons_skip _ _ b.pk hab]
    apply dictLookup_found
    · exact hB b.pk (fun s hs => hkb s (List.mem_append_right _ (List.mem_cons_of_mem _ hs)))
    · refine hCLT b.pk ?_ ?_ ?_
      · intro s hs
        exact hkb' s (List.mem_append_left _ hs)
      · exact hkb' l (List.mem_append_right _ (List.mem_cons_self _ _))
      · intro s hs
        exact hkb' s (List.mem_append_right _ (List.mem_cons_of_mem _ hs))
  · -- lookup l.pk: skip everything before the entry of the lower layer
    rw [dictLookup_skip_front _ _ l.pk (hA l.pk
      (fun s hs => hkl s (List.mem_append_left _ hs)))]
    rw [dictLookup_cons_skip _ _ l.pk hal]
    rw [dictLookup_skip_front _ _ l.pk (hB l.pk (fun s hs =>
      hkl s (List.mem_append_right _ (List.mem_cons_of_mem _ (List.mem_append_left _ hs)))))]
    rw [dictLookup_cons_skip _ _ l.pk hbl]
    apply dictLookup_found
    · refine hC l.pk ?_
      intro s hs
      exact hkl s (List.mem_append_right _ (List.mem_cons_of_mem _
        (List.mem_append_right _ (List.mem_cons_of_mem _ hs))))
    · exact hT l.pk hkl'


/-- Witness for C1 (amended): stack `[a, b, l]` top-down with holes
`{0, 1}` and `{1, 2}`; `a` is unrestricted, `b` gets `{0, 1}`, `l` gets
the intersection `{1}`. -/
theorem claim_C1_amended_witness :
    ((⟨1, some ({0, 1} : CGeom), ∅, []⟩ : SubGeoms).holes = some ({0, 1} : CGeom) ∧
     ({0, 1} : CGeom) ∩ ({1, 2} : CGeom) ≠ ∅) ∧
    (dictLookup (chooseCroppers (([] : List SubGeoms) ++ (⟨1, some {0, 1}, ∅, []⟩ : SubGeoms) ::
        (([] : List SubGeoms) ++ (⟨2, some {1, 2}, ∅, []⟩ : SubGeoms) ::
          (([] : List SubGeoms) ++ (⟨3, none, ∅, []⟩ : SubGeoms) ::
            ([] : List SubGeoms)))) none 0)
        (⟨1, some ({0, 1} : CGeom), ∅, []⟩ : SubGeoms).pk = some none ∧
     dictLookup (chooseCroppers (([] : List SubGeoms) ++ (⟨1, some {0, 1}, ∅, []⟩ : SubGeoms) ::
        (([] : List SubGeoms) ++ (⟨2, some {1, 2}, ∅, []⟩ : SubGeoms) ::
          (([] : List SubGeoms) ++ (⟨3, none, ∅, []⟩ : SubGeoms) ::
            ([] : List SubGeoms)))) none 0)
        (⟨2, some ({1, 2} : CGeom), ∅, []⟩ : SubGeoms).pk = some (some ({0, 1} : CGeom)) ∧
     dictLookup (chooseCroppers (([] : List SubGeoms) ++ (⟨1, some {0, 1}, ∅, []⟩ : SubGeoms) ::
        (([] : List SubGeoms) ++ (⟨2, some {1, 2}, ∅, []⟩ : SubGeoms) ::
          (([] : List SubGeoms) ++ (⟨3, none, ∅, []⟩ : SubGeoms) ::
            ([] : List SubGeoms)))) none 0)
        (⟨3, none, ∅, []⟩ : SubGeoms).pk =
       some (some (({0, 1} : CGeom) ∩ ({1, 2} : CGeom)))) :=
  ⟨⟨by decide, by decide⟩,
   claim_C1_amended [] [] [] [] ⟨1, some {0, 1}, ∅, []⟩ ⟨2, some {1, 2}, ∅, []⟩
     ⟨3, none, ∅, []⟩ {0, 1} {1, 2} (by decide) (by decide) (by decide) (by decide)
     (by decide) (by decide) (by decide) (by decide) (by decide) (by decide) (by decide)
     (by decide) (by decide) (by decide)⟩

/-- Counterexample for C1 as stated: with disjoint non-empty holes `{0}`
and `{1}`, the walk breaks after the second hole-contributing layer, so
the layer below both (pk 3) is assigned no cropper at all rather than a
cropper equal to `H1 ∩ H2`. -/
theorem claim_C1_counterexample :
    ({0} : CGeom) ≠ ∅ ∧ ({1} : CGeom) ≠ ∅ ∧
    dictLookup (chooseCroppers
      [⟨1, some ({0} : CGeom), ∅, []⟩, ⟨2, some ({1} : CGeom), ∅, []⟩,
       (⟨3, none, ∅, []⟩ : SubGeoms)] none 0) 3 = none := by decide

/-- C6 (amended): a sublevel with an assigned cropper whose cropped walls
are empty and whose cropped altitude-area list is empty is skipped by the
render walk (`continue`), and the rest of the walk — in particular every
sublevel below it, which the bottom-to-top loop processes earlier — is
exactly as if the sublevel were absent; the walk is not terminated. -/
theorem claim_C6_amended (assign : List (Nat × Option CGeom)) (s : SubGeoms)
    (cg : Option CGeom) (xs ys : List SubGeoms)
    (hlk : dictLookup assign s.pk = some cg)
    (hw : Cropper.intersection ⟨cg⟩ s.walls = ∅)
    (ha : (s.altitudeareas.map (fun a => Cropper.intersection ⟨cg⟩ a)).filter
      (fun a => a ≠ ∅) = []) :
    renderWalk assign (xs ++ s :: ys) = renderWalk assign (xs ++ ys) :=
  renderWalk_skip assign s cg hlk hw ha xs ys

/-- Witness for C6 (amended) at a concrete three-sublevel walk. -/
theorem claim_C6_amended_witness :
    (dictLookup [(1, (none : Option CGeom)), (2, none), (3, none)]
        (⟨2, none, ∅, []⟩ : SubGeoms).pk = some none ∧
     Cropper.intersection ⟨none⟩ (⟨2, none, ∅, []⟩ : SubGeoms).walls = ∅) ∧
    renderWalk [(1, (none : Option CGeom)), (2, none), (3, none)]
        ([⟨1, none, {0}, []⟩] ++ (⟨2, none, ∅, []⟩ : SubGeoms) :: [⟨3, none, {0}, []⟩]) =
      renderWalk [(1, (none : Option CGeom)), (2, none), (3, none)]
        ([⟨1, none, {0}, []⟩] ++ [⟨3, none, {0}, []⟩]) :=
  ⟨⟨by decide, by decide⟩,
   claim_C6_amended [(1, none), (2, none), (3, none)] ⟨2, none, ∅, []⟩ none
     [⟨1, none, {0}, []⟩] [⟨3, none, {0}, []⟩] (by decide) (by decide) (by decide)⟩

/-- Counterexample for C6 as stated: in the bottom-to-top sublevel list
`[pk 1, pk 2, pk 3]` the middle sublevel has empty walls and no altitude
areas (and an assigned unrestricted cropper), yet pk 1 — a sublevel below
it — is still included in the level's RenderData, so such a sublevel does
not terminate the walk for the levels below it. -/
theorem claim_C6_counterexample :
    dictLookup (chooseCroppers ([(⟨1, none, {0}, []⟩ : SubGeoms), ⟨2, none, ∅, []⟩,
        ⟨3, none, {0}, []⟩] : List SubGeoms).reverse none 0) 2 = some none ∧
    Cropper.intersection ⟨none⟩ ((⟨2, none, ∅, []⟩ : SubGeoms).walls) = ∅ ∧
    (⟨2, none, ∅, []⟩ : SubGeoms).altitudeareas = [] ∧
    rebuildIncludedPks [⟨1, none, {0}, []⟩, ⟨2, none, ∅, []⟩, ⟨3, none, {0}, []⟩] =
      [1, 3] := by decide

/-- Membership in the tree-backed index contract: an id is reported iff
some live part box of that id meets some part box of the query. -/
theorem mem_liveIntersection (live : List (Nat × Box)) (q : IGeom) (i : Nat) :
    i ∈ liveIntersection live q ↔
      ∃ p ∈ live, p.1 = i ∧ ∃ b ∈ q, p.2.meets b = true := by
  rw [liveIntersection, mem_foldl_union]
  simp only [Finset.not_mem_empty, false_or, liveQueryBox, List.mem_toFinset, List.mem_map,
    List.mem_filter]
  constructor
  · rintro ⟨b, hb, p, ⟨hp, hm⟩, rfl⟩
    exact ⟨p, hp, rfl, b, hb, hm⟩
  · rintro ⟨p, hp, rfl, b, hb, hm⟩
    exact ⟨b, hb, p, ⟨hp, hm⟩, rfl⟩

/-- C5 (amended): over every valid sequence of `insert`/`delete` calls,
the tree-backed implementation's `intersection` returns exactly the set
of ids with a live registered part whose bounding box meets a part box of
the query; the fallback does not satisfy that contract — it ignores the
query and returns all stored geometry values. -/
theorem claim_C5_amended (ops : List IndexOp) (q : IGeom) (hvalid : validOps ops = true) :
    (runRTree ops).intersection q = liveIntersection (liveEntries ops) q ∧
    (runFallback ops).intersection q = (runFallback ops).objects.map (fun p => p.2) := by
  constructor
  · have hidx : (runRTree ops).idx = liveEntries ops := (RInv_runRTree ops).1
    rw [RTreeIndex.intersection, liveIntersection]
    simp only [RTreeIndex.queryBox, liveQueryBox, hidx]
  · rfl

/-- Witness for C5 (amended): insert two ids, delete one; the surviving
id is reported exactly when its box meets the query. -/
theorem claim_C5_witness :
    validOps [.ins 1 [⟨0, 0, 1, 1⟩], .ins 2 [⟨5, 5, 6, 6⟩], .del 1] = true ∧
    ((runRTree [.ins 1 [⟨0, 0, 1, 1⟩], .ins 2 [⟨5, 5, 6, 6⟩], .del 1]).intersection
        [⟨0, 0, 9, 9⟩] =
      liveIntersection (liveEntries [.ins 1 [⟨0, 0, 1, 1⟩], .ins 2 [⟨5, 5, 6, 6⟩], .del 1])
        [⟨0, 0, 9, 9⟩] ∧
     (runFallback [.ins 1 [⟨0, 0, 1, 1⟩], .ins 2 [⟨5, 5, 6, 6⟩], .del 1]).intersection
        [⟨0, 0, 9, 9⟩] =
      (runFallback [.ins 1 [⟨0, 0, 1, 1⟩], .ins 2 [⟨5, 5, 6, 6⟩], .del 1]).objects.map
        (fun p => p.2)) :=
  ⟨by decide,
   claim_C5_amended [.ins 1 [⟨0, 0, 1, 1⟩], .ins 2 [⟨5, 5, 6, 6⟩], .del 1]
     [⟨0, 0, 9, 9⟩] (by decide)⟩

/-- Counterexample for C5 as stated: after `insert(1, box(0,0,1,1))`, a
query box far away must yield the empty id set under the claimed common
contract, but the fallback implementation returns all stored geometry
values (it ignores the query entirely, and returns geometries rather than
ids). -/
theorem claim_C5_counterexample :
    (runFallback [.ins 1 [⟨0, 0, 1, 1⟩]]).intersection [⟨5, 5, 6, 6⟩] =
      [[⟨0, 0, 1, 1⟩]] ∧
    liveIntersection (liveEntries [.ins 1 [⟨0, 0, 1, 1⟩]]) [⟨5, 5, 6, 6⟩] = ∅ := by decide

/-- C4: two tile requests for the same level, zoom, x, y whose decoded
permission sets agree once intersected with the restrictions present in
the tile's cell range produce the same ETag and the same tile-bytes cache
key. -/
theorem claim_C4 (ld : LevelData) (secret : List Nat) (level zoom x y : Int)
    (P1 P2 : Finset Nat)
    (hsame : P1 ∩ (ld.restrictions.slice (get_tile_bounds zoom x y).1
        (get_tile_bounds zoom x y).2.2.1 (get_tile_bounds zoom x y).2.1
        (get_tile_bounds zoom x y).2.2.2).toFinset =
      P2 ∩ (ld.restrictions.slice (get_tile_bounds zoom x y).1
        (get_tile_bounds zoom x y).2.2.1 (get_tile_bounds zoom x y).2.1
        (get_tile_bounds zoom x y).2.2.2).toFinset) :
    tileEtagAndCacheKey ld secret level zoom x y (some P1) =
      tileEtagAndCacheKey ld secret level zoom x y (some P2) := by
  simp only [tileEtagAndCacheKey]
  rw [hsame]

/-- Witness for C4: permission sets `{1, 7}` and `{1, 9}` differ only in
permissions absent from the tile's restriction range `{1, 2}`. -/
theorem claim_C4_witness :
    (({1, 7} : Finset Nat) ∩ ((⟨0, 0, 2, 1, 1, [], [1, 2]⟩ :
        MapHistory).slice (get_tile_bounds 0 0 0).1 (get_tile_bounds 0 0 0).2.2.1
        (get_tile_bounds 0 0 0).2.1 (get_tile_bounds 0 0 0).2.2.2).toFinset =
      ({1, 9} : Finset Nat) ∩ ((⟨0, 0, 2, 1, 1, [], [1, 2]⟩ :
        MapHistory).slice (get_tile_bounds 0 0 0).1 (get_tile_bounds 0 0 0).2.2.1
        (get_tile_bounds 0 0 0).2.1 (get_tile_bounds 0 0 0).2.2.2).toFinset) ∧
    tileEtagAndCacheKey ⟨⟨0, 0, 2, 1, 1, [(4, 4)], [0, 0]⟩, ⟨0, 0, 2, 1, 1, [], [1, 2]⟩⟩
        [9] 1 0 0 0 (some {1, 7}) =
      tileEtagAndCacheKey ⟨⟨0, 0, 2, 1, 1, [(4, 4)], [0, 0]⟩, ⟨0, 0, 2, 1, 1, [], [1, 2]⟩⟩
        [9] 1 0 0 0 (some {1, 9}) :=
  ⟨by decide,
   claim_C4 ⟨⟨0, 0, 2, 1, 1, [(4, 4)], [0, 0]⟩, ⟨0, 0, 2, 1, 1, [], [1, 2]⟩⟩ [9] 1 0 0 0
     {1, 7} {1, 9} (by decide)⟩

/-- C9 (amended): every failing refresh attempt returns `False` without
raising and leaves the shared active-package pointer unchanged; for
network errors, 403 responses, unexpected 304s, HTTP status errors and
parse failures the whole worker state is unchanged, but a store failure
(after a successful parse) leaves the newly parsed package in the
worker's in-memory state with a cleared upstream ETag and an updated
local filename. -/
theorem claim_C9_amended (st : TSState) (r : FetchResult) (parse : Nat → Option Nat)
    (storeOk : Bool) (newName : Nat)
    (hfail : (load_cache_package st r parse storeOk newName).2 = false) :
    (load_cache_package st r parse storeOk newName).1.shared_filename =
      st.shared_filename ∧
    ((load_cache_package st r parse storeOk newName).1 = st ∨
      ∃ c e pkg, r = .ok c e ∧ parse c = some pkg ∧ storeOk = false ∧
        (load_cache_package st r parse storeOk newName).1 =
          { st with cache_package := some pkg, cache_package_etag := none,
                    cache_package_filename := some newName }) := by
  cases r with
  | netError => exact ⟨rfl, Or.inl rfl⟩
  | status403 => exact ⟨rfl, Or.inl rfl⟩
  | httpError => exact ⟨rfl, Or.inl rfl⟩
  | status304 =>
      rcases hcp : st.cache_package with _ | pkg
      · simp [load_cache_package, hcp]
      · simp [load_cache_package, hcp] at hfail
  | ok c e =>
      rcases hp : parse c with _ | pkg
      · simp [load_cache_package, hp]
      · cases storeOk with
        | true => simp [load_cache_package, hp] at hfail
        | false =>
            refine ⟨by simp [load_cache_package, hp], Or.inr ⟨c, e, pkg, rfl, hp, rfl, ?_⟩⟩
            simp [load_cache_package, hp]

/-- Witness for C9 (amended) at a failing parse attempt. -/
theorem claim_C9_amended_witness :
    (load_cache_package ⟨some 10, some 20, some 30, some 30⟩ (.ok 5 (some 21))
        (fun _ => none) true 99).2 = false ∧
    ((load_cache_package ⟨some 10, some 20, some 30, some 30⟩ (.ok 5 (some 21))
        (fun _ => none) true 99).1.shared_filename =
      (⟨some 10, some 20, some 30, some 30⟩ : TSState).shared_filename ∧
     ((load_cache_package ⟨some 10, some 20, some 30, some 30⟩ (.ok 5 (some 21))
        (fun _ => none) true 99).1 = ⟨some 10, some 20, some 30, some 30⟩ ∨
      ∃ c e pkg, (FetchResult.ok 5 (some 21)) = .ok c e ∧ (fun _ => none : Nat → Option Nat) c = some pkg ∧
        true = false ∧
        (load_cache_package ⟨some 10, some 20, some 30, some 30⟩ (.ok 5 (some 21))
          (fun _ => none) true 99).1 =
          { (⟨some 10, some 20, some 30, some 30⟩ : TSState) with
              cache_package := some pkg, cache_package_etag := none,
              cache_package_filename := some 99 })) :=
  ⟨rfl,
   claim_C9_amended ⟨some 10, some 20, some 30, some 30⟩ (.ok 5 (some 21))
     (fun _ => none) true 99 rfl⟩

/-- Counterexample for C9 as stated: a store failure (pickling/publishing
fails after a successful download and parse) returns `False`, yet the
worker's active in-memory package has been overwritten with the newly
parsed package — the state is not unchanged. -/
theorem claim_C9_counterexample :
    (load_cache_package ⟨some 10, some 20, some 30, some 30⟩ (.ok 5 (some 21))
      (fun c => some (c + 100)) false 99).2 = false ∧
    (load_cache_package ⟨some 10, some 20, some 30, some 30⟩ (.ok 5 (some 21))
      (fun c => some (c + 100)) false 99).1.cache_package = some 105 ∧
    (⟨some 10, some 20, some 30, some 30⟩ : TSState).cache_package = some 10 := by
  refine ⟨rfl, rfl, rfl⟩

end C3nav
